import Mathlib

/-!
Verification of `lab1-http-fileserver/src/server.py`, a minimal concurrent
HTTP/1.1 file server.  The Python code is shallowly embedded: pure string
manipulation becomes functions on `List Char`, the mutable module-level
dictionaries (`rl_state`, `hit_counter`) become explicit state values threaded
through the functions, Python floats are modelled as exact rationals, and the
wall clock (`time.monotonic()`) is an explicit argument.  Filesystem access is
modelled by an abstract snapshot record, and the one operation that can raise
(`os.scandir`) returns an `Except`.
-/

namespace Server

/-- Python strings (and byte strings) are modelled as lists of characters.
Percent-decoding is modelled at the byte level: a decoded `%XY` pair becomes
the character with that code point (the server only ever compares these
characters against ASCII `/` and `.`, on which byte-level and UTF-8-level
processing agree). -/
abbrev Str := List Char

/-! ## RateLimiter: `token_bucket_allow` (server.py lines 70–84) -/

/-- The module-level dictionary `rl_state`: per-client-IP pairs
`(tokens, last_time)`.  Python floats are modelled as exact rationals. -/
def RL : Type := String → Option (ℚ × ℚ)

/-- The dictionary state before any request was handled (`rl_state = {}`). -/
def RL.emp : RL := fun _ => none

/-- Dictionary store `rl_state[ip] = v`. -/
def RL.upd (st : RL) (ip : String) (v : ℚ × ℚ) : RL :=
  fun k => if k = ip then some v else st k

/-- `token_bucket_allow(ip, rate, burst)` from server.py lines 70–84.
`time.monotonic()` is passed explicitly as `now`; the lock around the
read-modify-write is represented by the function being a single atomic
state transformer.  Returns the admission verdict and the new `rl_state`. -/
def token_bucket_allow (st : RL) (ip : String) (rate burst now : ℚ) : Bool × RL :=
  if rate ≤ 0 then (true, st)
  else
    let p := (st ip).getD (burst, now)
    let tokens := min burst (p.1 + (now - p.2) * rate)
    if 1 ≤ tokens then (true, RL.upd st ip (tokens - 1, now))
    else (false, RL.upd st ip (tokens, now))

/-- Python `int()` applied to a float: truncation toward zero. -/
def pyInt (q : ℚ) : Int := if 0 ≤ q then ⌊q⌋ else -⌊-q⌋

/-- Selection of the effective burst in `handle_request` (server.py line 117):
`burst = args.burst if args.burst is not None else max(1, int(args.rate))`. -/
def effectiveBurst (burstArg : Option Int) (rate : ℚ) : Int :=
  burstArg.getD (max 1 (pyInt rate))

/-- Invariant on the rate-limiter state at time `t`: every recorded bucket
holds between `0` and `burst` tokens and was last refilled no later than `t`. -/
def RLInv (burst t : ℚ) (st : RL) : Prop :=
  ∀ ip tk l, st ip = some (tk, l) → 0 ≤ tk ∧ tk ≤ burst ∧ l ≤ t

/-- Running a sequence of `token_bucket_allow` calls (IP and time of each call)
against a starting state, keeping only the final state. -/
def tbTrace (rate burst : ℚ) (st : RL) (calls : List (String × ℚ)) : RL :=
  calls.foldl (fun s c => (token_bucket_allow s c.1 rate burst c.2).2) st

theorem RLInv_mono {burst t t' : ℚ} {st : RL} (h : t ≤ t') (hst : RLInv burst t st) :
    RLInv burst t' st := by
  intro ip tk l hl
  obtain ⟨h1, h2, h3⟩ := hst ip tk l hl
  exact ⟨h1, h2, le_trans h3 h⟩

theorem RLInv_upd {burst now tk : ℚ} {st : RL} (hst : RLInv burst now st)
    (h0 : 0 ≤ tk) (hb : tk ≤ burst) (ip : String) :
    RLInv burst now (RL.upd st ip (tk, now)) := by
  intro j tk' l' hj
  unfold RL.upd at hj
  by_cases hji : j = ip
  · simp only [hji, if_true, Option.some.injEq, Prod.mk.injEq] at hj
    obtain ⟨rfl, rfl⟩ := hj
    exact ⟨h0, hb, le_refl now⟩
  · simp only [hji, if_false] at hj
    exact hst j tk' l' hj

theorem tb_step_inv {rate burst now : ℚ} {st : RL} (hrate : 0 < rate) (hburst : 1 ≤ burst)
    (hst : RLInv burst now st) (ip : String) :
    RLInv burst now (token_bucket_allow st ip rate burst now).2 := by
  have hnle : ¬ rate ≤ 0 := not_le.mpr hrate
  unfold token_bucket_allow
  simp only [hnle, if_false]
  have hbounds : 0 ≤ ((st ip).getD (burst, now)).1 ∧
      ((st ip).getD (burst, now)).2 ≤ now := by
    rcases hp : st ip with _ | ⟨tk, l⟩
    · simp only [hp, Option.getD]
      exact ⟨by linarith, le_refl now⟩
    · obtain ⟨h1, _, h3⟩ := hst ip tk l hp
      simp only [hp, Option.getD]
      exact ⟨h1, h3⟩
  set p := (st ip).getD (burst, now) with hpdef
  have hre0 : 0 ≤ min burst (p.1 + (now - p.2) * rate) := by
    have : 0 ≤ (now - p.2) * rate := mul_nonneg (by linarith [hbounds.2]) (le_of_lt hrate)
    exact le_min (by linarith) (by linarith [hbounds.1])
  have hreb : min burst (p.1 + (now - p.2) * rate) ≤ burst := min_le_left _ _
  by_cases hge : 1 ≤ min burst (p.1 + (now - p.2) * rate)
  · simp only [hge, if_true]
    exact RLInv_upd hst (by linarith) (by linarith) ip
  · simp only [hge, if_false]
    exact RLInv_upd hst hre0 hreb ip

theorem tbTrace_inv {rate burst : ℚ} (hrate : 0 < rate) (hburst : 1 ≤ burst) :
    ∀ (calls : List (String × ℚ)) (t0 : ℚ) (st : RL), RLInv burst t0 st →
      List.Chain' (· ≤ ·) (t0 :: calls.map Prod.snd) →
      ∀ ip tk l, tbTrace rate burst st calls ip = some (tk, l) → 0 ≤ tk ∧ tk ≤ burst := by
  intro calls
  induction calls with
  | nil =>
    intro t0 st hst _ ip tk l hl
    obtain ⟨h1, h2, _⟩ := hst ip tk l hl
    exact ⟨h1, h2⟩
  | cons c rest ih =>
    intro t0 st hst hchain ip tk l hl
    have h01 : t0 ≤ c.2 := (List.chain'_cons.mp hchain).1
    have hchain' : List.Chain' (· ≤ ·) (c.2 :: rest.map Prod.snd) :=
      (List.chain'_cons.mp hchain).2
    have hst' : RLInv burst c.2 st := RLInv_mono h01 hst
    have hstep := tb_step_inv hrate hburst hst' c.1
    exact ih c.2 _ hstep hchain' ip tk l hl

/-- Claim C8: after any sequence of `token_bucket_allow` calls with a fixed
rate `> 0` and burst `≥ 1`, issued at monotonically non-decreasing time
readings, every per-IP entry of the rate-limiter state satisfies
`0 ≤ tokens ≤ burst`. -/
theorem C8_token_bucket_invariant (rate burst t0 : ℚ) (calls : List (String × ℚ))
    (hrate : 0 < rate) (hburst : 1 ≤ burst)
    (hchain : List.Chain' (· ≤ ·) (t0 :: calls.map Prod.snd)) :
    ∀ ip tk l, tbTrace rate burst RL.emp calls ip = some (tk, l) →
      0 ≤ tk ∧ tk ≤ burst := by
  have hemp : RLInv burst t0 RL.emp := by
    intro ip tk l h
    simp [RL.emp] at h
  exact tbTrace_inv hrate hburst calls t0 RL.emp hemp hchain

theorem C8_token_bucket_invariant_witness :
    (0 < (2 : ℚ) ∧ 1 ≤ (2 : ℚ) ∧
      List.Chain' (· ≤ ·) ((0 : ℚ) :: ([(("a" : String), (1 : ℚ)), ("b", 1), ("a", 3)].map Prod.snd))) ∧
    (∀ ip tk l,
      tbTrace 2 2 RL.emp [(("a" : String), (1 : ℚ)), ("b", 1), ("a", 3)] ip = some (tk, l) →
        0 ≤ tk ∧ tk ≤ 2) := by
  have hchain : List.Chain' (· ≤ ·)
      ((0 : ℚ) :: ([(("a" : String), (1 : ℚ)), ("b", 1), ("a", 3)].map Prod.snd)) := by
    simp only [List.map, List.chain'_cons, List.chain'_singleton]
    norm_num
  refine ⟨⟨by norm_num, by norm_num, hchain⟩, ?_⟩
  exact C8_token_bucket_invariant 2 2 0 [("a", 1), ("b", 1), ("a", 3)]
    (by norm_num) (by norm_num) hchain

theorem tb_known {st : RL} {ip : String} {rate burst now tk l refill : ℚ}
    (hrate : ¬ rate ≤ 0) (hip : st ip = some (tk, l))
    (hrefill : min burst (tk + (now - l) * rate) = refill) :
    token_bucket_allow st ip rate burst now =
      if 1 ≤ refill then (true, RL.upd st ip (refill - 1, now))
      else (false, RL.upd st ip (refill, now)) := by
  unfold token_bucket_allow
  rw [if_neg hrate]
  simp only [hip, Option.getD, hrefill]

theorem tb_fresh {st : RL} {ip : String} {rate burst now : ℚ}
    (hrate : ¬ rate ≤ 0) (hip : st ip = none) :
    token_bucket_allow st ip rate burst now =
      if 1 ≤ burst then (true, RL.upd st ip (burst - 1, now))
      else (false, RL.upd st ip (burst, now)) := by
  unfold token_bucket_allow
  rw [if_neg hrate]
  simp only [hip, Option.getD]
  rw [sub_self, zero_mul, add_zero, min_self]

theorem upd_self {st : RL} {ip : String} {v : ℚ × ℚ} : RL.upd st ip v ip = some v := by
  simp [RL.upd]

/-- Claim C2: behavior of `token_bucket_allow`.  (a) with `rate ≤ 0` the call
returns allowed and leaves the state untouched; (b) on first sight of an IP the
bucket is initialized to `(burst, now)`, so the refill is a no-op and the call
consumes from `burst` directly; (c) on a known IP the call computes
`refill = min(burst, tokens + rate·(now − last))`, returns allowed storing
`(refill − 1, now)` iff `refill ≥ 1`, and otherwise stores `(refill, now)` and
returns denied; (d) with `rate = 2`, `burst = 2`, three immediate calls from
one IP yield allowed, allowed, denied, and a fourth call after waiting
`d ≥ 1/2` seconds is allowed. -/
theorem C2_token_bucket_behavior (st : RL) (ip : String) (rate burst now t d : ℚ)
    (hd : 1 / 2 ≤ d) :
    (rate ≤ 0 → token_bucket_allow st ip rate burst now = (true, st)) ∧
    (¬ rate ≤ 0 → st ip = none →
      token_bucket_allow st ip rate burst now =
        if 1 ≤ burst then (true, RL.upd st ip (burst - 1, now))
        else (false, RL.upd st ip (burst, now))) ∧
    (¬ rate ≤ 0 → ∀ tk l, st ip = some (tk, l) →
      token_bucket_allow st ip rate burst now =
        if 1 ≤ min burst (tk + (now - l) * rate) then
          (true, RL.upd st ip (min burst (tk + (now - l) * rate) - 1, now))
        else (false, RL.upd st ip (min burst (tk + (now - l) * rate), now))) ∧
    ((token_bucket_allow RL.emp ip 2 2 t).1 = true ∧
      (token_bucket_allow (token_bucket_allow RL.emp ip 2 2 t).2 ip 2 2 t).1 = true ∧
      (token_bucket_allow
        (token_bucket_allow (token_bucket_allow RL.emp ip 2 2 t).2 ip 2 2 t).2
        ip 2 2 t).1 = false ∧
      (token_bucket_allow
        (token_bucket_allow
          (token_bucket_allow (token_bucket_allow RL.emp ip 2 2 t).2 ip 2 2 t).2
          ip 2 2 t).2 ip 2 2 (t + d)).1 = true) := by
  have h20 : ¬ (2 : ℚ) ≤ 0 := by norm_num
  have hemp : RL.emp ip = none := rfl
  have e1 : token_bucket_allow RL.emp ip 2 2 t = (true, RL.upd RL.emp ip (1, t)) := by
    rw [tb_fresh h20 hemp, if_pos (by norm_num : (1:ℚ) ≤ 2)]
    norm_num
  have e2 : token_bucket_allow (RL.upd RL.emp ip (1, t)) ip 2 2 t =
      (true, RL.upd (RL.upd RL.emp ip (1, t)) ip (0, t)) := by
    have hr : min (2:ℚ) (1 + (t - t) * 2) = 1 := by
      rw [sub_self, zero_mul, add_zero]
      norm_num
    rw [tb_known h20 upd_self hr, if_pos (le_refl (1:ℚ))]
    norm_num
  have e3 : token_bucket_allow (RL.upd (RL.upd RL.emp ip (1, t)) ip (0, t)) ip 2 2 t =
      (false, RL.upd (RL.upd (RL.upd RL.emp ip (1, t)) ip (0, t)) ip (0, t)) := by
    have hr : min (2:ℚ) (0 + (t - t) * 2) = 0 := by
      rw [sub_self, zero_mul, add_zero]
      norm_num
    rw [tb_known h20 upd_self hr, if_neg (by norm_num : ¬ (1:ℚ) ≤ 0)]
  refine ⟨?_, ?_, ?_, ?_⟩
  · intro h
    unfold token_bucket_allow
    rw [if_pos h]
  · intro h hip
    exact tb_fresh h hip
  · intro h tk l hip
    exact tb_known h hip rfl
  · rw [e1]
    rw [e2]
    rw [e3]
    refine ⟨rfl, rfl, rfl, ?_⟩
    have hr : min (2:ℚ) (0 + (t + d - t) * 2) = min 2 (2 * d) := by
      congr 1
      ring
    rw [tb_known h20 upd_self hr,
      if_pos (le_min (by norm_num) (by linarith) : (1:ℚ) ≤ min 2 (2 * d))]

theorem C2_token_bucket_behavior_witness :
    ((1 : ℚ) / 2 ≤ 1 / 2) ∧
    ((token_bucket_allow RL.emp "ip" 2 2 0).1 = true ∧
      (token_bucket_allow (token_bucket_allow RL.emp "ip" 2 2 0).2 "ip" 2 2 0).1 = true ∧
      (token_bucket_allow
        (token_bucket_allow (token_bucket_allow RL.emp "ip" 2 2 0).2 "ip" 2 2 0).2
        "ip" 2 2 0).1 = false ∧
      (token_bucket_allow
        (token_bucket_allow
          (token_bucket_allow (token_bucket_allow RL.emp "ip" 2 2 0).2 "ip" 2 2 0).2
          "ip" 2 2 0).2 "ip" 2 2 (0 + 1 / 2)).1 = true) :=
  ⟨le_refl _,
    (C2_token_bucket_behavior RL.emp "ip" 1 1 0 0 (1 / 2) (le_refl _)).2.2.2⟩

/-- Claim C6 counterexample: with `rate = 1/2` and no configured burst, the
effective burst is `max(1, int(1/2)) = 1`, not the configured rate `1/2`, so
the claim "the effective burst equals the configured rate for every rate
`r > 0`" is false. -/
theorem C6_counterexample :
    0 < ((1 : ℚ) / 2) ∧ effectiveBurst none (1 / 2) = 1 ∧
      ((effectiveBurst none (1 / 2) : Int) : ℚ) ≠ 1 / 2 := by
  refine ⟨by norm_num, ?_, ?_⟩ <;> norm_num [effectiveBurst, pyInt]

/-- Claim C6 amended: when the burst is unspecified, the effective burst is
`max(1, int(rate))` (Python `int` truncates toward zero); it equals the
configured rate exactly for integer rates `n ≥ 1`.  A configured burst is used
as given. -/
theorem C6_default_burst (r : ℚ) (n : Int) (hn : 1 ≤ n) :
    effectiveBurst none r = max 1 (pyInt r) ∧
    effectiveBurst (some n) r = n ∧
    effectiveBurst none ((n : ℚ)) = n := by
  refine ⟨rfl, rfl, ?_⟩
  unfold effectiveBurst pyInt
  rw [Option.getD]
  rw [if_pos (by exact_mod_cast (by linarith : (0:Int) ≤ n) : (0:ℚ) ≤ (n:ℚ))]
  rw [Int.floor_intCast]
  exact max_eq_right hn

theorem C6_default_burst_witness :
    (1 ≤ (3 : Int)) ∧
    (effectiveBurst none (7 / 3) = max 1 (pyInt (7 / 3)) ∧
      effectiveBurst (some 3) (7 / 3) = 3 ∧
      effectiveBurst none ((3 : Int) : ℚ) = 3) :=
  ⟨by norm_num, C6_default_burst (7 / 3) 3 (by norm_num)⟩

/-! ## ResponseBuilder: `build_response` (server.py lines 26–35)

Header dictionaries are modelled as association lists in insertion order;
Python dicts preserve insertion order and `setdefault` appends a missing key
at the end.  The `.encode("iso-8859-1")` step is the identity in the
byte-level string model, and `http_date()` is passed in as `date`. -/

abbrev Headers := List (Str × Str)

def SERVER_NAME : Str := "TinyPy/0.3".toList

def CRLF : Str := ['\r', '\n']

def lookupH : Headers → Str → Option Str
  | [], _ => none
  | (k, v) :: rest, key => if k = key then some v else lookupH rest key

/-- Python `dict.setdefault(k, v)`: insert `(k, v)` at the end iff `k` is
absent. -/
def setdefault (hs : Headers) (k v : Str) : Headers :=
  match lookupH hs k with
  | some _ => hs
  | none => hs ++ [(k, v)]

/-- The header dictionary after the three `setdefault` calls of
`build_response` (server.py lines 28–30). -/
def baseHeaders (hs : Headers) (date : Str) : Headers :=
  setdefault (setdefault (setdefault hs ("Date".toList) date)
    ("Server".toList) SERVER_NAME) ("Connection".toList) ("close".toList)

/-- The header dictionary after additionally applying the `Content-Length`
insertion of `build_response` (server.py lines 31–32). -/
def finalHeaders (hs : Headers) (date : Str) (body : Str) : Headers :=
  if body ≠ [] ∧ lookupH (baseHeaders hs date) ("Content-Length".toList) = none then
    baseHeaders hs date ++ [("Content-Length".toList, (Nat.repr body.length).toList)]
  else baseHeaders hs date

def serializeHeader (kv : Str × Str) : Str :=
  kv.1 ++ (": ".toList) ++ kv.2 ++ CRLF

def statusLine (code : Nat) (reason : Str) : Str :=
  ("HTTP/1.1 ".toList) ++ (Nat.repr code).toList ++ [' '] ++ reason ++ CRLF

/-- `build_response(code, reason, headers, body)` from server.py lines 26–35. -/
def build_response (code : Nat) (reason : Str) (hs : Headers) (body : Str)
    (date : Str) : Str :=
  statusLine code reason ++
    ((finalHeaders hs date body).map serializeHeader).flatten ++ CRLF ++ body

theorem lookupH_append_none {hs : Headers} {key : Str} (more : Headers)
    (h : lookupH hs key = none) : lookupH (hs ++ more) key = lookupH more key := by
  induction hs with
  | nil => rfl
  | cons kv rest ih =>
    obtain ⟨k, v⟩ := kv
    by_cases hk : k = key
    · simp only [lookupH, hk, if_true] at h
      exact absurd h (by simp)
    · simp only [lookupH, hk, if_false] at h
      simp only [List.cons_append, lookupH, hk, if_false]
      exact ih h

theorem lookupH_append_some {hs : Headers} {key v : Str} (more : Headers)
    (h : lookupH hs key = some v) : lookupH (hs ++ more) key = some v := by
  induction hs with
  | nil => exact absurd h (by simp [lookupH])
  | cons kv rest ih =>
    obtain ⟨k, w⟩ := kv
    by_cases hk : k = key
    · simp only [lookupH, hk, if_true] at h
      simp only [List.cons_append, lookupH, hk, if_true]
      exact h
    · simp only [lookupH, hk, if_false] at h
      simp only [List.cons_append, lookupH, hk, if_false]
      exact ih h

theorem setdefault_pres_some {hs : Headers} {key v : Str} (k' v' : Str)
    (h : lookupH hs key = some v) : lookupH (setdefault hs k' v') key = some v := by
  unfold setdefault
  cases hk : lookupH hs k' with
  | some w => exact h
  | none => exact lookupH_append_some _ h

theorem setdefault_self_of_none {hs : Headers} {k : Str} (v : Str)
    (h : lookupH hs k = none) : lookupH (setdefault hs k v) k = some v := by
  unfold setdefault
  rw [h, lookupH_append_none _ h]
  simp [lookupH]

theorem setdefault_other {hs : Headers} {key : Str} (k v : Str) (hne : k ≠ key) :
    lookupH (setdefault hs k v) key = lookupH hs key := by
  unfold setdefault
  cases hk : lookupH hs k with
  | some w => rfl
  | none =>
    cases hkey : lookupH hs key with
    | some w => exact lookupH_append_some _ hkey
    | none =>
      rw [lookupH_append_none _ hkey]
      simp [lookupH, hne]

theorem setdefault_tail (hs : Headers) (k v : Str) :
    ∃ tail, setdefault hs k v = hs ++ tail := by
  unfold setdefault
  cases lookupH hs k with
  | some w => exact ⟨[], by simp⟩
  | none => exact ⟨[(k, v)], rfl⟩

/-- Claim C7 counterexample: `Connection: close` is not "always set" — it is
installed with `setdefault`, so a caller-supplied `Connection` header survives
unchanged and the serialized response carries `keep-alive`, not `close`. -/
theorem C7_counterexample :
    lookupH (finalHeaders [("Connection".toList, "keep-alive".toList)]
        ("D".toList) []) ("Connection".toList) = some ("keep-alive".toList) ∧
    lookupH (finalHeaders [("Connection".toList, "keep-alive".toList)]
        ("D".toList) []) ("Connection".toList) ≠ some ("close".toList) ∧
    build_response 200 ("OK".toList) [("Connection".toList, "keep-alive".toList)]
        [] ("D".toList) =
      ("HTTP/1.1 200 OK\r\nConnection: keep-alive\r\nDate: D\r\nServer: TinyPy/0.3\r\n\r\n".toList) := by
  refine ⟨by decide, by decide, by decide⟩

/-- Claim C7 amended: `build_response` sets `Date`, `Server` and
`Connection: close` each only if not already present (all three use
`setdefault`); every caller-supplied header survives with its value; headers
keep insertion order, with defaulted headers appended after the caller's;
`Content-Length` is set to the body length when the body is non-empty and the
header absent; and the output is exactly the status line, the serialized
headers `Key: Value\r\n` in order, a blank line, and the body unmodified. -/
theorem C7_build_response (code : Nat) (reason : Str) (hs : Headers) (body date : Str) :
    (lookupH hs ("Date".toList) = none →
      lookupH (finalHeaders hs date body) ("Date".toList) = some date) ∧
    (lookupH hs ("Server".toList) = none →
      lookupH (finalHeaders hs date body) ("Server".toList) = some SERVER_NAME) ∧
    (lookupH hs ("Connection".toList) = none →
      lookupH (finalHeaders hs date body) ("Connection".toList) = some ("close".toList)) ∧
    (∀ k v, lookupH hs k = some v → lookupH (finalHeaders hs date body) k = some v) ∧
    (body ≠ [] → lookupH hs ("Content-Length".toList) = none →
      lookupH (finalHeaders hs date body) ("Content-Length".toList) =
        some ((Nat.repr body.length).toList)) ∧
    (∃ tail, finalHeaders hs date body = hs ++ tail) ∧
    build_response code reason hs body date =
      statusLine code reason ++
        ((finalHeaders hs date body).map serializeHeader).flatten ++ CRLF ++ body := by
  have hfh : ∀ k v, lookupH (baseHeaders hs date) k = some v →
      lookupH (finalHeaders hs date body) k = some v := by
    intro k v h
    unfold finalHeaders
    split
    · exact lookupH_append_some _ h
    · exact h
  refine ⟨?_, ?_, ?_, ?_, ?_, ?_, rfl⟩
  · intro h
    exact hfh _ _ (setdefault_pres_some _ _
      (setdefault_pres_some _ _ (setdefault_self_of_none date h)))
  · intro h
    have h1 : lookupH (setdefault hs ("Date".toList) date) ("Server".toList) = none := by
      rw [setdefault_other _ _ (by decide)]
      exact h
    exact hfh _ _ (setdefault_pres_some _ _ (setdefault_self_of_none SERVER_NAME h1))
  · intro h
    have h1 : lookupH (setdefault hs ("Date".toList) date) ("Connection".toList) = none := by
      rw [setdefault_other _ _ (by decide)]
      exact h
    have h2 : lookupH (setdefault (setdefault hs ("Date".toList) date)
        ("Server".toList) SERVER_NAME) ("Connection".toList) = none := by
      rw [setdefault_other _ _ (by decide)]
      exact h1
    exact hfh _ _ (setdefault_self_of_none ("close".toList) h2)
  · intro k v h
    exact hfh _ _ (setdefault_pres_some _ _
      (setdefault_pres_some _ _ (setdefault_pres_some _ _ h)))
  · intro hb h
    have h3 : lookupH (baseHeaders hs date) ("Content-Length".toList) = none := by
      unfold baseHeaders
      rw [setdefault_other _ _ (by decide), setdefault_other _ _ (by decide),
        setdefault_other _ _ (by decide)]
      exact h
    unfold finalHeaders
    rw [if_pos ⟨hb, h3⟩]
    rw [lookupH_append_none _ h3]
    simp [lookupH]
  · obtain ⟨t1, e1⟩ := setdefault_tail hs ("Date".toList) date
    obtain ⟨t2, e2⟩ := setdefault_tail (setdefault hs ("Date".toList) date)
      ("Server".toList) SERVER_NAME
    obtain ⟨t3, e3⟩ := setdefault_tail (setdefault (setdefault hs ("Date".toList) date)
      ("Server".toList) SERVER_NAME) ("Connection".toList) ("close".toList)
    have eb : baseHeaders hs date = hs ++ (t1 ++ t2 ++ t3) := by
      unfold baseHeaders
      rw [e3, e2, e1]
      simp
    unfold finalHeaders
    split
    · exact ⟨t1 ++ t2 ++ t3 ++ [("Content-Length".toList,
        (Nat.repr body.length).toList)], by rw [eb]; simp⟩
    · exact ⟨t1 ++ t2 ++ t3, eb⟩

theorem C7_build_response_witness :
    (lookupH [] ("Date".toList) = none ∧ ("x".toList : Str) ≠ []) ∧
    (lookupH (finalHeaders [] ("D".toList) ("x".toList)) ("Date".toList) =
        some ("D".toList) ∧
      lookupH (finalHeaders [] ("D".toList) ("x".toList)) ("Content-Length".toList) =
        some ((Nat.repr ("x".toList : Str).length).toList)) :=
  ⟨⟨rfl, by decide⟩,
    ⟨(C7_build_response 200 ("OK".toList) [] ("x".toList) ("D".toList)).1 rfl,
      (C7_build_response 200 ("OK".toList) [] ("x".toList) ("D".toList)).2.2.2.2.1
        (by decide) rfl⟩⟩

/-! ## PathResolver: `safe_join` (server.py lines 37–44)

`safe_join` is a composition of CPython's `urllib.parse.urlparse(...).path`,
`urllib.parse.unquote`, `str.lstrip`, `posixpath.normpath`, `posixpath.join`,
`posixpath.abspath` and `posixpath.commonpath`, each translated below from
its CPython source.  All of them are pure string functions: the resolver
performs no filesystem access (this holds by construction of the model;
`abspath` consults the working directory only for relative arguments, and
`serve()` always passes an absolute root). -/

/-- `posixpath.isabs`: the path starts with a slash. -/
def isAbs : Str → Bool
  | [] => false
  | c :: _ => c == '/'

/-- The path starts with at least two slashes. -/
def startsDouble : Str → Bool
  | c :: d :: _ => c == '/' && d == '/'
  | _ => false

/-- The path starts with at least three slashes. -/
def startsTriple : Str → Bool
  | c :: d :: e :: _ => c == '/' && d == '/' && e == '/'
  | _ => false

/-- One iteration of the component loop of `posixpath.normpath`: skip empty
and `.` components; append a component unless it is a `..` that can cancel a
preceding real component; `flag` is the truthiness of `initial_slashes`. -/
def normStep (flag : Bool) (acc : List Str) (comp : Str) : List Str :=
  if comp = [] ∨ comp = ['.'] then acc
  else if comp ≠ ['.', '.'] ∨ (flag = false ∧ acc = []) ∨
      (acc ≠ [] ∧ acc.getLast? = some ['.', '.']) then acc ++ [comp]
  else if acc ≠ [] then acc.dropLast
  else acc

def normComps (flag : Bool) (cs : List Str) : List Str :=
  cs.foldl (normStep flag) []

/-- Reassembly step of `normpath`: `sep.join(comps)` with the slash prefix,
falling back to `.` when the result is empty (Python's `path or '.'`). -/
def normAssemble (slashes : Nat) (nc : List Str) : Str :=
  if List.replicate slashes '/' ++ List.intercalate ['/'] nc = [] then ['.']
  else List.replicate slashes '/' ++ List.intercalate ['/'] nc

/-- `posixpath.normpath`, translated from CPython: split on `/`, run the
component loop, rejoin, prepending one slash for absolute paths (two when the
input starts with exactly two slashes, a POSIX special case). -/
def normpath (p : Str) : Str :=
  if p = [] then ['.']
  else normAssemble
    (if isAbs p then (if startsDouble p && !startsTriple p then 2 else 1) else 0)
    (normComps (isAbs p) (p.splitOn '/'))

/-- `str.lstrip("/")`. -/
def lstripSlash (p : Str) : Str := p.dropWhile (fun c => c == '/')

/-- `posixpath.join(a, b)` for one extra part, from CPython: an absolute `b`
replaces `a`; otherwise `b` is appended, with a separator unless `a` is empty
or already ends in one. -/
def pyJoin (a b : Str) : Str :=
  if isAbs b then b
  else if a = [] ∨ a.getLast? = some '/' then a ++ b
  else a ++ '/' :: b

def hexVal (c : Char) : Option Nat :=
  if '0' ≤ c ∧ c ≤ '9' then some (c.toNat - '0'.toNat)
  else if 'a' ≤ c ∧ c ≤ 'f' then some (c.toNat - 'a'.toNat + 10)
  else if 'A' ≤ c ∧ c ≤ 'F' then some (c.toNat - 'A'.toNat + 10)
  else none

/-- `urllib.parse.unquote`, at the byte level: each valid `%XY` hex pair
becomes the character with code `16·X + Y`; an invalid escape is kept
verbatim.  (CPython additionally reassembles the decoded bytes as UTF-8;
the bytes relevant to path safety, `/` and `.`, are unaffected.) -/
def unquote : Str → Str
  | [] => []
  | '%' :: a :: b :: rest =>
    match hexVal a, hexVal b with
    | some ha, some hb => Char.ofNat (16 * ha + hb) :: unquote rest
    | _, _ => '%' :: unquote (a :: b :: rest)
  | c :: rest => c :: unquote rest

/-- `urlsplit` removes ASCII tab, CR and LF anywhere in the URL before
parsing. -/
def stripUnsafe (p : Str) : Str :=
  p.filter (fun c => !(c == '\t' || c == '\r' || c == '\n'))

/-- Fragment removal: keep everything before the first `#`. -/
def stripFrag (p : Str) : Str := p.takeWhile (fun c => c ≠ '#')

/-- Query removal: keep everything before the first `?`. -/
def stripQuery (p : Str) : Str := p.takeWhile (fun c => c ≠ '?')

/-- Network-location removal of `urlsplit`: a URL starting with `//` has its
netloc (up to the next `/`, `?` or `#`) split off the front.  Scheme parsing
never fires for request paths starting with `/`. -/
def stripNetloc (p : Str) : Str :=
  if startsDouble p then
    (p.drop 2).dropWhile (fun c => ¬(c = '/' ∨ c = '?' ∨ c = '#'))
  else p

/-- Params removal of `urlparse` (`_splitparams`): if the path contains `;`,
drop everything from the first `;` of the last `/`-segment (or of the whole
string when it has no `/`). -/
def stripParams (p : Str) : Str :=
  if ';' ∈ p then
    if '/' ∈ p then
      let segRev := p.reverse.takeWhile (fun c => c ≠ '/')
      if ';' ∈ segRev.reverse then
        (p.reverse.dropWhile (fun c => c ≠ '/')).reverse ++
          segRev.reverse.takeWhile (fun c => c ≠ ';')
      else p
    else p.takeWhile (fun c => c ≠ ';')
  else p

/-- `urllib.parse.urlparse(u).path`, composed from the pieces in CPython's
order: unsafe-byte removal, then netloc, fragment, query, params. -/
def urlPath (u : Str) : Str :=
  stripParams (stripQuery (stripFrag (stripNetloc (stripUnsafe u))))

/-- Longest common prefix of two component lists (what
`posixpath.commonpath` computes for a two-element argument via
`min`/`max` and the first-difference scan). -/
def lcp : List Str → List Str → List Str
  | a :: as, b :: bs => if a = b then a :: lcp as bs else []
  | _, _ => []

/-- The component filter `commonpath` applies before comparing: split on the
separator and drop empty and `.` components. -/
def cleanComps (s : Str) : List Str :=
  (s.splitOn '/').filter (fun c => ¬(c = [] ∨ c = ['.']))

/-- `posixpath.commonpath([a, b])`, translated from CPython for the
two-argument form used on server.py line 42.  Both arguments are absolute at
that call site (so the `ValueError` branch for mixed arguments is
unreachable); the `/` prefix of the result follows the first argument. -/
def commonpath2 (a b : Str) : Str :=
  (if isAbs a then ['/'] else []) ++
    List.intercalate ['/'] (lcp (cleanComps a) (cleanComps b))

/-- `os.path.abspath` as it applies inside `safe_join`: `serve()` hands the
handler `root = os.path.abspath(root)`, so the argument is always absolute,
and for absolute paths `abspath` is `normpath` (no `getcwd()` involved). -/
def abspath (p : Str) : Str := normpath p

/-- `safe_join(root, url_path)` from server.py lines 37–44 (the local
variables `path`, `rel`, `full` of the Python function are inlined). -/
def safe_join (root url_path : Str) : Option Str :=
  if commonpath2 (abspath root)
      (normpath (pyJoin root (normpath (lstripSlash (unquote (urlPath url_path)))))) ≠
      abspath root then none
  else some (normpath (pyJoin root (normpath (lstripSlash (unquote (urlPath url_path))))))

/-- Boolean list-prefix test for component lists. -/
def isPrefixL : List Str → List Str → Bool
  | [], _ => true
  | a :: as, b :: bs => a = b && isPrefixL as bs
  | _ :: _, [] => false

/-- Modelled from the claim wording: path `f` lies within root `a` when the
cleaned components of `a` are a prefix of those of `f` (i.e. `f` equals the
root or is a descendant of it). -/
def liesWithin (a f : Str) : Bool := isPrefixL (cleanComps a) (cleanComps f)

/-- Modelled from the claim wording (spec §4.1 / §8): strip query and
fragment, percent-decode, join naively onto the root with a separator,
normalize, and test whether the result escapes the normalized absolute
root. -/
def specEscapes (root rawp : Str) : Bool :=
  ! liesWithin (abspath root) (normpath (root ++ '/' :: unquote (stripQuery (stripFrag rawp))))

/-- Claim C1 counterexample: the request path `//..` contains a `..` segment
and escapes the root `/srv` when naively joined (`/srv` + `/` + `//..`
normalizes to `/`), yet `safe_join` accepts it, returning the root itself:
`urlparse` treats the leading `//` as a network location and resolves the
path to the empty string.  So the claim "every path with `..` segments that
would escape the root when naively joined is rejected" is false as stated. -/
theorem C1_counterexample :
    ['.', '.'] ∈ ("//..".toList).splitOn '/' ∧
    specEscapes ("/srv".toList) ("//..".toList) = true ∧
    safe_join ("/srv".toList) ("//..".toList) = some ("/srv".toList) := by
  refine ⟨by decide, by decide, by decide⟩

/-! ### Lemmas about splitting on the path separator -/

theorem splitOn_cons_sep (b : Str) : ('/' :: b).splitOn '/' = [] :: b.splitOn '/' := by
  simp [List.splitOn, List.splitOnP_cons]

theorem splitOn_cons_ne {c : Char} (h : c ≠ '/') (b : Str) :
    (c :: b).splitOn '/' = (b.splitOn '/').modifyHead (List.cons c) := by
  simp [List.splitOn, List.splitOnP_cons, h]

theorem splitOn_ne_nil (s : Str) : s.splitOn '/' ≠ [] :=
  List.splitOnP_ne_nil _ s

theorem modifyHead_append (f : Str → Str) {xs : List Str} (ys : List Str) (h : xs ≠ []) :
    (xs ++ ys).modifyHead f = xs.modifyHead f ++ ys := by
  cases xs with
  | nil => exact absurd rfl h
  | cons x xs' => simp [List.modifyHead]

theorem splitOn_sep_append (a b : Str) :
    (a ++ '/' :: b).splitOn '/' = a.splitOn '/' ++ b.splitOn '/' := by
  induction a with
  | nil => simp [splitOn_cons_sep]
  | cons x a' ih =>
    by_cases hx : x = '/'
    · subst hx
      rw [List.cons_append, splitOn_cons_sep, splitOn_cons_sep, ih]
      rfl
    · rw [List.cons_append, splitOn_cons_ne hx, splitOn_cons_ne hx, ih,
        modifyHead_append _ _ (splitOn_ne_nil a')]

theorem splitOn_no_sep (s : Str) : ∀ l ∈ s.splitOn '/', '/' ∉ l := by
  induction s with
  | nil =>
    intro l hl
    simp only [List.splitOn_nil, List.mem_singleton] at hl
    subst hl
    simp
  | cons x s' ih =>
    by_cases hx : x = '/'
    · subst hx
      rw [splitOn_cons_sep]
      intro l hl
      rcases List.mem_cons.mp hl with rfl | hl'
      · simp
      · exact ih l hl'
    · rw [splitOn_cons_ne hx]
      rcases hsp : s'.splitOn '/' with _ | ⟨h0, t⟩
      · exact absurd hsp (splitOn_ne_nil s')
      · intro l hl
        simp only [List.modifyHead] at hl
        rcases List.mem_cons.mp hl with rfl | hl'
        · intro hmem
          rcases List.mem_cons.mp hmem with h | h
          · exact hx h.symm
          · exact ih h0 (by rw [hsp]; exact List.mem_cons_self _ _) h
        · exact ih l (by rw [hsp]; exact List.mem_cons_of_mem _ hl')

/-! ### The component-normalization machine -/

theorem normStep_skip {flag : Bool} {acc : List Str} {c : Str} (h : c = [] ∨ c = ['.']) :
    normStep flag acc c = acc := by
  unfold normStep
  rw [if_pos h]

theorem normStep_app {flag : Bool} {acc : List Str} {c : Str}
    (h1 : ¬(c = [] ∨ c = ['.']))
    (h2 : c ≠ ['.', '.'] ∨ (flag = false ∧ acc = []) ∨
      (acc ≠ [] ∧ acc.getLast? = some ['.', '.'])) :
    normStep flag acc c = acc ++ [c] := by
  unfold normStep
  rw [if_neg h1, if_pos h2]

theorem normStep_pop {flag : Bool} {acc : List Str} {c : Str}
    (h1 : ¬(c = [] ∨ c = ['.']))
    (h2 : ¬(c ≠ ['.', '.'] ∨ (flag = false ∧ acc = []) ∨
      (acc ≠ [] ∧ acc.getLast? = some ['.', '.'])))
    (h3 : acc ≠ []) :
    normStep flag acc c = acc.dropLast := by
  unfold normStep
  rw [if_neg h1, if_neg h2, if_pos h3]

theorem mem_of_getLast?_eq {α : Type} {l : List α} {a : α} (h : l.getLast? = some a) : a ∈ l := by
  obtain ⟨l', rfl⟩ := List.getLast?_eq_some_iff.mp h
  simp

/-- The component machine only ever stores non-empty, non-`.`, separator-free
components, for either flag, as long as the input components are
separator-free. -/
theorem foldl_norm_basic (flag : Bool) :
    ∀ (cs : List Str) (acc : List Str), (∀ c ∈ cs, '/' ∉ c) →
      (∀ c ∈ acc, c ≠ [] ∧ c ≠ ['.'] ∧ '/' ∉ c) →
      ∀ c ∈ List.foldl (normStep flag) acc cs, c ≠ [] ∧ c ≠ ['.'] ∧ '/' ∉ c := by
  intro cs
  induction cs with
  | nil => intro acc _ hacc; exact hacc
  | cons d ds ih =>
    intro acc hcs hacc
    have hd : '/' ∉ d := hcs d (List.mem_cons_self _ _)
    have hds : ∀ c ∈ ds, '/' ∉ c := fun c hc => hcs c (List.mem_cons_of_mem _ hc)
    rw [List.foldl_cons]
    refine ih _ hds ?_
    by_cases h1 : d = [] ∨ d = ['.']
    · rw [normStep_skip h1]; exact hacc
    · by_cases h2 : d ≠ ['.', '.'] ∨ (flag = false ∧ acc = []) ∨
          (acc ≠ [] ∧ acc.getLast? = some ['.', '.'])
      · rw [normStep_app h1 h2]
        intro c hc
        rcases List.mem_append.mp hc with hc' | hc'
        · exact hacc c hc'
        · rcases List.mem_singleton.mp hc' with rfl
          exact ⟨fun he => h1 (Or.inl he), fun he => h1 (Or.inr he), hd⟩
      · by_cases h3 : acc = []
        · unfold normStep
          rw [if_neg h1, if_neg h2, if_neg (by simpa using h3)]
          exact hacc
        · rw [normStep_pop h1 h2 h3]
          intro c hc
          exact hacc c (List.dropLast_subset _ hc)

/-- With `initial_slashes` truthy (absolute paths), `..` never survives into
the machine state. -/
theorem foldl_norm_noup :
    ∀ (cs : List Str) (acc : List Str), (∀ c ∈ acc, c ≠ ['.', '.']) →
      ∀ c ∈ List.foldl (normStep true) acc cs, c ≠ ['.', '.'] := by
  intro cs
  induction cs with
  | nil => intro acc hacc; exact hacc
  | cons d ds ih =>
    intro acc hacc
    rw [List.foldl_cons]
    refine ih _ ?_
    by_cases h1 : d = [] ∨ d = ['.']
    · rw [normStep_skip h1]; exact hacc
    · by_cases h2 : d ≠ ['.', '.'] ∨ ((true : Bool) = false ∧ acc = []) ∨
          (acc ≠ [] ∧ acc.getLast? = some ['.', '.'])
      · rw [normStep_app h1 h2]
        intro c hc
        rcases List.mem_append.mp hc with hc' | hc'
        · exact hacc c hc'
        · rcases List.mem_singleton.mp hc' with rfl
          rcases h2 with h | h | h
          · exact h
          · exact absurd h.1 (by simp)
          · exact absurd (hacc _ (mem_of_getLast?_eq h.2)) (by simp)
      · by_cases h3 : acc = []
        · unfold normStep
          rw [if_neg h1, if_neg h2, if_neg (by simpa using h3)]
          exact hacc
        · rw [normStep_pop h1 h2 h3]
          intro c hc
          exact hacc c (List.dropLast_subset _ hc)

/-- A reachable state of the relative machine: a block of leading `..`
components followed by ordinary components. -/
def RelOk (acc : List Str) : Prop :=
  ∃ k t, acc = List.replicate k ['.', '.'] ++ t ∧
    ∀ c ∈ t, c ≠ [] ∧ c ≠ ['.'] ∧ c ≠ ['.', '.']

theorem relOk_nil : RelOk [] := ⟨0, [], rfl, by simp⟩

theorem relOk_getLast_up {acc : List Str} (h : RelOk acc)
    (hl : acc.getLast? = some ['.', '.']) :
    ∃ k, acc = List.replicate k ['.', '.'] := by
  obtain ⟨k, t, rfl, ht⟩ := h
  cases t with
  | nil => exact ⟨k, by simp⟩
  | cons x xs =>
    rw [List.getLast?_append_of_ne_nil _ (by simp)] at hl
    exact absurd (ht _ (mem_of_getLast?_eq hl)).2.2 (by simp)

theorem relOk_step {acc : List Str} (h : RelOk acc) (d : Str) :
    RelOk (normStep false acc d) := by
  by_cases h1 : d = [] ∨ d = ['.']
  · rw [normStep_skip h1]; exact h
  · by_cases h2 : d ≠ ['.', '.'] ∨ ((false : Bool) = false ∧ acc = []) ∨
        (acc ≠ [] ∧ acc.getLast? = some ['.', '.'])
    · rw [normStep_app h1 h2]
      by_cases hd : d = ['.', '.']
      · subst hd
        rcases h2 with h' | h' | h'
        · exact absurd rfl h'
        · rw [h'.2]
          exact ⟨1, [], by simp, by simp⟩
        · obtain ⟨k, rfl⟩ := relOk_getLast_up h h'.2
          exact ⟨k + 1, [], by rw [List.replicate_succ']; simp, by simp⟩
      · obtain ⟨k, t, rfl, ht⟩ := h
        refine ⟨k, t ++ [d], by rw [List.append_assoc], ?_⟩
        intro c hc
        rcases List.mem_append.mp hc with hc' | hc'
        · exact ht c hc'
        · rcases List.mem_singleton.mp hc' with rfl
          exact ⟨fun he => h1 (Or.inl he), fun he => h1 (Or.inr he), hd⟩
    · by_cases h3 : acc = []
      · unfold normStep
        rw [if_neg h1, if_neg h2, if_neg (by simpa using h3)]
        exact h
      · have hlast : acc.getLast? ≠ some ['.', '.'] := by
          intro hl
          exact h2 (Or.inr (Or.inr ⟨h3, hl⟩))
        rw [normStep_pop h1 h2 h3]
        obtain ⟨k, t, rfl, ht⟩ := h
        cases t with
        | nil =>
          cases k with
          | zero => exact absurd (by simp) h3
          | succ k' =>
            exact absurd (by
              rw [List.append_nil, List.replicate_succ', List.getLast?_concat]) hlast
        | cons x xs =>
          rw [List.dropLast_append_of_ne_nil _ (by simp)]
          refine ⟨k, (x :: xs).dropLast, rfl, ?_⟩
          intro c hc
          exact ht c (List.dropLast_subset _ hc)

/-- Key simulation step: feeding the relative machine's one-step output into
the absolute machine is the same as feeding the raw component directly. -/
theorem step_comm {acc : List Str} (h : RelOk acc) (d : Str) (s : List Str) :
    List.foldl (normStep true) s (normStep false acc d) =
      normStep true (List.foldl (normStep true) s acc) d := by
  by_cases h1 : d = [] ∨ d = ['.']
  · rw [normStep_skip h1, normStep_skip h1]
  · by_cases h2 : d ≠ ['.', '.'] ∨ ((false : Bool) = false ∧ acc = []) ∨
        (acc ≠ [] ∧ acc.getLast? = some ['.', '.'])
    · rw [normStep_app h1 h2, List.foldl_concat]
    · -- the relative machine pops: acc is nonempty and ends in a real
      -- component x; the absolute machine run ends in ... ++ [x], and the
      -- incoming `..` pops exactly that x on both sides.
      have h3 : acc ≠ [] := by
        intro hnil
        exact h2 (Or.inr (Or.inl ⟨rfl, hnil⟩))
      have hlast : acc.getLast? ≠ some ['.', '.'] := by
        intro hl
        exact h2 (Or.inr (Or.inr ⟨h3, hl⟩))
      have hd : d = ['.', '.'] := by
        by_contra hne
        exact h2 (Or.inl hne)
      subst hd
      obtain ⟨k, t, rfl, ht⟩ := h
      have ht_ne : t ≠ [] := by
        intro hnil
        subst hnil
        cases k with
        | zero => exact h3 (by simp)
        | succ k' =>
          exact hlast (by rw [List.append_nil, List.replicate_succ', List.getLast?_concat])
      rcases List.eq_nil_or_concat t with rfl | ⟨ys, x, rfl⟩
      · exact absurd rfl ht_ne
      · rw [List.concat_eq_append] at *
        have hx : x ≠ [] ∧ x ≠ ['.'] ∧ x ≠ ['.', '.'] := ht x (by simp)
        have hassoc : List.replicate k ['.', '.'] ++ (ys ++ [x]) =
            (List.replicate k ['.', '.'] ++ ys) ++ [x] := by
          rw [List.append_assoc]
        rw [normStep_pop h1 h2 h3, hassoc, List.dropLast_concat, List.foldl_concat]
        have e1 : normStep true (List.foldl (normStep true) s
            (List.replicate k ['.', '.'] ++ ys)) x =
            List.foldl (normStep true) s (List.replicate k ['.', '.'] ++ ys) ++ [x] :=
          normStep_app (by
            intro hc
            rcases hc with hc | hc
            · exact hx.1 hc
            · exact hx.2.1 hc) (Or.inl hx.2.2)
        rw [e1]
        have e2 : normStep true ((List.foldl (normStep true) s
            (List.replicate k ['.', '.'] ++ ys)) ++ [x]) ['.', '.'] =
            ((List.foldl (normStep true) s
              (List.replicate k ['.', '.'] ++ ys)) ++ [x]).dropLast := by
          refine normStep_pop h1 ?_ (by simp)
          intro hc
          rcases hc with hc | hc | hc
          · exact hc rfl
          · exact absurd hc.1 (by simp)
          · rw [List.getLast?_concat] at hc
            exact hx.2.2 (Option.some.injEq _ _ ▸ hc.2)
        rw [e2, List.dropLast_concat]

/-- The full simulation: normalizing a relative component list first and then
feeding the result to the absolute machine is the same as feeding the raw
components directly. -/
theorem rel_sim : ∀ (ds : List Str) (acc s : List Str), RelOk acc →
    List.foldl (normStep true) s (List.foldl (normStep false) acc ds) =
      List.foldl (normStep true) (List.foldl (normStep true) s acc) ds := by
  intro ds
  induction ds with
  | nil => intro acc s _; rfl
  | cons d ds' ih =>
    intro acc s h
    rw [List.foldl_cons, List.foldl_cons, ih (normStep false acc d) s (relOk_step h d),
      step_comm h d s]

theorem rel_sim0 (ds : List Str) (s : List Str) :
    List.foldl (normStep true) s (normComps false ds) =
      List.foldl (normStep true) s ds := by
  have := rel_sim ds [] s relOk_nil
  simpa [normComps] using this

/-! ### Assembly and disassembly of normalized paths -/

theorem intercalate_one (x : Str) : List.intercalate ['/'] [x] = x := by
  simp [List.intercalate]

theorem intercalate_cons_cons (x y : Str) (ys : List Str) :
    List.intercalate ['/'] (x :: y :: ys) = x ++ '/' :: List.intercalate ['/'] (y :: ys) := by
  simp [List.intercalate, List.intersperse]

theorem intercalate_ne_nil {nc : List Str} (hne : nc ≠ []) (h : ∀ c ∈ nc, c ≠ []) :
    List.intercalate ['/'] nc ≠ [] := by
  cases nc with
  | nil => exact absurd rfl hne
  | cons x xs =>
    cases xs with
    | nil =>
      rw [intercalate_one]
      exact h x (by simp)
    | cons y ys =>
      rw [intercalate_cons_cons]
      have hx := h x (by simp)
      cases x with
      | nil => exact absurd rfl hx
      | cons c cs => simp

theorem getLast?_intercalate :
    ∀ (nc : List Str), nc ≠ [] → (∀ c ∈ nc, c ≠ []) →
      ∃ piece ∈ nc, (List.intercalate ['/'] nc).getLast? = piece.getLast? := by
  intro nc
  induction nc with
  | nil => intro h; exact absurd rfl h
  | cons x xs ih =>
    intro _ hgood
    cases xs with
    | nil => exact ⟨x, by simp, by rw [intercalate_one]⟩
    | cons y ys =>
      obtain ⟨p, hp, he⟩ := ih (by simp)
        (fun c hc => hgood c (List.mem_cons_of_mem _ hc))
      refine ⟨p, List.mem_cons_of_mem _ hp, ?_⟩
      have hne : List.intercalate ['/'] (y :: ys) ≠ [] :=
        intercalate_ne_nil (by simp)
          (fun c hc => hgood c (List.mem_cons_of_mem _ hc))
      rw [intercalate_cons_cons,
        List.getLast?_append_of_ne_nil _ (by simp : ('/' :: List.intercalate ['/'] (y :: ys)) ≠ []),
        show ('/' :: List.intercalate ['/'] (y :: ys)) = ['/'] ++ List.intercalate ['/'] (y :: ys) from rfl,
        List.getLast?_append_of_ne_nil _ hne, he]

theorem isAbs_append_left {a : Str} (hA : isAbs a = true) (X : Str) :
    isAbs (a ++ X) = true := by
  cases a with
  | nil => simp [isAbs] at hA
  | cons c cs => simpa [isAbs] using hA

theorem isAbs_good_append {x : Str} (hne : x ≠ []) (hns : '/' ∉ x) (L : Str) :
    isAbs (x ++ L) = false := by
  cases x with
  | nil => exact absurd rfl hne
  | cons c cs =>
    have hc : c ≠ '/' := fun h => hns (by simp [h])
    simpa [isAbs] using hc

theorem normAssemble_pos {k : Nat} (hk : k ≠ 0) (nc : List Str) :
    normAssemble k nc = List.replicate k '/' ++ List.intercalate ['/'] nc := by
  unfold normAssemble
  rw [if_neg]
  cases k with
  | zero => exact absurd rfl hk
  | succ k' => simp [List.replicate_succ]

theorem normAssemble_zero (nc : List Str) :
    normAssemble 0 nc = if List.intercalate ['/'] nc = [] then ['.']
      else List.intercalate ['/'] nc := by
  unfold normAssemble
  simp [List.replicate]

theorem isAbs_ne_nil {s : Str} (hA : isAbs s = true) : s ≠ [] := by
  intro h
  rw [h] at hA
  simp [isAbs] at hA

/-- Structure of `normpath` on an absolute path: a one- or two-slash prefix
followed by the intercalated machine output. -/
theorem normpath_abs {s : Str} (hA : isAbs s = true) :
    normpath s = List.replicate (if startsDouble s && !startsTriple s then 2 else 1) '/' ++
      List.intercalate ['/'] (normComps true (s.splitOn '/')) := by
  unfold normpath
  rw [if_neg (isAbs_ne_nil hA), hA, if_pos rfl]
  rcases hb : startsDouble s && !startsTriple s with _ | _
  · rw [normAssemble_pos (by norm_num)]
  · rw [normAssemble_pos (by norm_num)]

/-- Structure of `normpath` on a relative path. -/
theorem normpath_rel {r : Str} (hA : isAbs r = false) :
    normpath r = if List.intercalate ['/'] (normComps false (r.splitOn '/')) = [] then ['.']
      else List.intercalate ['/'] (normComps false (r.splitOn '/')) := by
  by_cases hr : r = []
  · subst hr
    rfl
  · unfold normpath
    rw [if_neg hr, hA, if_neg Bool.false_ne_true, normAssemble_zero]

theorem normComps_good (s : Str) :
    ∀ c ∈ normComps true (s.splitOn '/'), c ≠ [] ∧ c ≠ ['.'] ∧ '/' ∉ c :=
  foldl_norm_basic true (s.splitOn '/') [] (splitOn_no_sep s) (by simp)

theorem cleanComps_cons_sep (Q : Str) : cleanComps ('/' :: Q) = cleanComps Q := by
  unfold cleanComps
  rw [splitOn_cons_sep]
  simp

theorem cleanComps_replicate_append (k : Nat) (Q : Str) :
    cleanComps (List.replicate k '/' ++ Q) = cleanComps Q := by
  induction k with
  | zero => simp
  | succ k' ih =>
    rw [List.replicate_succ, List.cons_append, cleanComps_cons_sep]
    exact ih

theorem cleanComps_intercalate {nc : List Str}
    (h : ∀ c ∈ nc, c ≠ [] ∧ c ≠ ['.'] ∧ '/' ∉ c) :
    cleanComps (List.intercalate ['/'] nc) = nc := by
  cases hnc : nc with
  | nil => rfl
  | cons x xs =>
    unfold cleanComps
    rw [← hnc, List.splitOn_intercalate nc '/' (fun l hl => (h l hl).2.2) (by rw [hnc]; simp)]
    rw [List.filter_eq_self.mpr]
    intro a ha
    have := h a ha
    simp only [decide_eq_true_eq]
    push_neg
    exact ⟨this.1, this.2.1⟩

theorem cleanComps_normpath_abs {s : Str} (hA : isAbs s = true) :
    cleanComps (normpath s) = normComps true (s.splitOn '/') := by
  rw [normpath_abs hA, cleanComps_replicate_append]
  exact cleanComps_intercalate (normComps_good s)

theorem isAbs_lstrip (p : Str) : isAbs (lstripSlash p) = false := by
  induction p with
  | nil => rfl
  | cons c cs ih =>
    by_cases hc : c = '/'
    · subst hc
      simpa [lstripSlash, List.dropWhile] using ih
    · have hb : (c == '/') = false := by simp [hc]
      simp [lstripSlash, List.dropWhile, hb, isAbs]

theorem normComps_rel_basic (r : Str) :
    ∀ c ∈ normComps false (r.splitOn '/'), c ≠ [] ∧ c ≠ ['.'] ∧ '/' ∉ c :=
  foldl_norm_basic false (r.splitOn '/') [] (splitOn_no_sep r) (by simp)

theorem isAbs_normpath_rel {r : Str} (hA : isAbs r = false) :
    isAbs (normpath r) = false := by
  rw [normpath_rel hA]
  split
  · rfl
  · rename_i hne
    cases hnc : normComps false (r.splitOn '/') with
    | nil => rw [hnc] at hne; simp [List.intercalate] at hne
    | cons x xs =>
      have hx : x ≠ [] ∧ x ≠ ['.'] ∧ '/' ∉ x := normComps_rel_basic r x (by rw [hnc]; simp)
      cases xs with
      | nil =>
        rw [intercalate_one, ← List.append_nil x]
        exact isAbs_good_append hx.1 hx.2.2 []
      | cons y ys =>
        rw [intercalate_cons_cons]
        exact isAbs_good_append hx.1 hx.2.2 _

theorem isAbs_pyJoin {a b : Str} (hA : isAbs a = true) (hb : isAbs b = false) :
    isAbs (pyJoin a b) = true := by
  unfold pyJoin
  rw [hb, if_neg Bool.false_ne_true]
  split
  · exact isAbs_append_left hA b
  · exact isAbs_append_left hA _

/-- Stripping leading slashes before splitting does not change the absolute
machine's run: the stripped slashes only contribute empty components, which
the machine skips. -/
theorem foldl_lstrip (P : Str) (acc : List Str) :
    List.foldl (normStep true) acc ((lstripSlash P).splitOn '/') =
      List.foldl (normStep true) acc (P.splitOn '/') := by
  induction P generalizing acc with
  | nil => rfl
  | cons c cs ih =>
    by_cases hc : c = '/'
    · subst hc
      have hl : lstripSlash ('/' :: cs) = lstripSlash cs := by
        simp [lstripSlash, List.dropWhile]
      rw [hl, splitOn_cons_sep, List.foldl_cons, normStep_skip (Or.inl rfl)]
      exact ih acc
    · have hb : (c == '/') = false := by simp [hc]
      have hl : lstripSlash (c :: cs) = c :: cs := by
        simp [lstripSlash, List.dropWhile, hb]
      rw [hl]

/-- Normalizing the (relative) stripped path first, as `safe_join` does, and
then running the absolute machine over it gives the same run as feeding the
raw request-path components directly: the inner `normpath` is absorbed. -/
theorem foldl_relnorm (P : Str) (acc : List Str) :
    List.foldl (normStep true) acc ((normpath (lstripSlash P)).splitOn '/') =
      List.foldl (normStep true) acc (P.splitOn '/') := by
  rw [normpath_rel (isAbs_lstrip P)]
  have hgood := normComps_rel_basic (lstripSlash P)
  by_cases hni : List.intercalate ['/'] (normComps false ((lstripSlash P).splitOn '/')) = []
  · rw [if_pos hni]
    have hnr_nil : normComps false ((lstripSlash P).splitOn '/') = [] := by
      cases hnn : normComps false ((lstripSlash P).splitOn '/') with
      | nil => rfl
      | cons x xs =>
        rw [hnn] at hni
        exact absurd hni (intercalate_ne_nil (by simp)
          (fun c hc => (hgood c (by rw [hnn]; exact hc)).1))
    have hdot : ((['.'] : Str)).splitOn '/' = [['.']] := rfl
    rw [hdot, List.foldl_cons, normStep_skip (Or.inr rfl),
      ← foldl_lstrip P acc, ← rel_sim0 ((lstripSlash P).splitOn '/') acc, hnr_nil]
  · rw [if_neg hni]
    have hnr_ne : normComps false ((lstripSlash P).splitOn '/') ≠ [] := by
      intro h0
      rw [h0] at hni
      simp [List.intercalate] at hni
    rw [List.splitOn_intercalate _ '/' (fun l hl => (hgood l hl).2.2) hnr_ne,
      ← foldl_lstrip P acc, ← rel_sim0 ((lstripSlash P).splitOn '/') acc]

/-- A normalized absolute root with a single leading slash either is `/`
itself or does not end in a slash. -/
theorem no_end_slash {root : Str} (hA : isAbs root = true) (hD : startsDouble root = false)
    (hN : normpath root = root) (hne : root ≠ ['/']) : root.getLast? ≠ some '/' := by
  intro hl
  have hstruct := normpath_abs hA
  rw [hD] at hstruct
  simp only [Bool.false_and, if_neg Bool.false_ne_true] at hstruct
  rw [hN] at hstruct
  have hgood := normComps_good root
  cases hnc : normComps true (root.splitOn '/') with
  | nil =>
    apply hne
    rw [hstruct, hnc]
    rfl
  | cons x xs =>
    have hQne : List.intercalate ['/'] (normComps true (root.splitOn '/')) ≠ [] := by
      rw [hnc]
      exact intercalate_ne_nil (by simp)
        (fun c hc => (hgood c (by rw [hnc]; exact hc)).1)
    obtain ⟨piece, hpmem, hplast⟩ := getLast?_intercalate (normComps true (root.splitOn '/'))
      (by rw [hnc]; simp) (fun c hc => (hgood c hc).1)
    rw [hstruct, List.getLast?_append_of_ne_nil _ hQne, hplast] at hl
    exact (hgood piece hpmem).2.2 (mem_of_getLast?_eq hl)

/-- Components of the path `safe_join` builds (`normpath(join(root, rel))`)
equal the absolute machine run of root components followed by raw request
components. -/
theorem full_comps {root : Str} (hA : isAbs root = true) (hD : startsDouble root = false)
    (hN : normpath root = root) (P : Str) :
    cleanComps (normpath (pyJoin root (normpath (lstripSlash P)))) =
      List.foldl (normStep true) (normComps true (root.splitOn '/')) (P.splitOn '/') := by
  have hrelA : isAbs (normpath (lstripSlash P)) = false :=
    isAbs_normpath_rel (isAbs_lstrip P)
  have hJA : isAbs (pyJoin root (normpath (lstripSlash P))) = true := isAbs_pyJoin hA hrelA
  rw [cleanComps_normpath_abs hJA]
  by_cases hroot : root = ['/']
  · subst hroot
    have hj : pyJoin ['/'] (normpath (lstripSlash P)) = '/' :: normpath (lstripSlash P) := by
      unfold pyJoin
      have hcond : (['/'] : Str) = [] ∨ (['/'] : Str).getLast? = some '/' := Or.inr rfl
      rw [hrelA, if_neg Bool.false_ne_true, if_pos hcond]
      rfl
    have hbase : normComps true (((['/'] : Str)).splitOn '/') = [] := rfl
    rw [hj, hbase]
    unfold normComps
    rw [splitOn_cons_sep, List.foldl_cons, normStep_skip (Or.inl rfl)]
    exact foldl_relnorm P []
  · have hend : root.getLast? ≠ some '/' := no_end_slash hA hD hN hroot
    have hroot_ne : root ≠ [] := isAbs_ne_nil hA
    have hj : pyJoin root (normpath (lstripSlash P)) =
        root ++ '/' :: normpath (lstripSlash P) := by
      unfold pyJoin
      rw [hrelA, if_neg Bool.false_ne_true, if_neg (by
        intro hor
        rcases hor with h | h
        · exact hroot_ne h
        · exact hend h)]
    rw [hj, splitOn_sep_append]
    unfold normComps
    rw [List.foldl_append]
    exact foldl_relnorm P _

/-- Components of the claim-side naive join `normpath(root + "/" + P)`. -/
theorem claim_comps {root : Str} (hA : isAbs root = true) (P : Str) :
    cleanComps (normpath (root ++ '/' :: P)) =
      List.foldl (normStep true) (normComps true (root.splitOn '/')) (P.splitOn '/') := by
  rw [cleanComps_normpath_abs (isAbs_append_left hA _), splitOn_sep_append]
  unfold normComps
  rw [List.foldl_append]

/-! ### The containment test -/

theorem lcp_eq_left_iff : ∀ (a b : List Str), lcp a b = a ↔ isPrefixL a b = true := by
  intro a
  induction a with
  | nil =>
    intro b
    cases b <;> simp [lcp, isPrefixL]
  | cons x as ih =>
    intro b
    cases b with
    | nil => simp [lcp, isPrefixL]
    | cons y bs =>
      by_cases hxy : x = y
      · subst hxy
        simp [lcp, isPrefixL, ih bs]
      · simp [lcp, isPrefixL, hxy]

theorem lcp_mem : ∀ (a b : List Str), ∀ c ∈ lcp a b, c ∈ a := by
  intro a
  induction a with
  | nil => intro b c hc; cases b <;> simp [lcp] at hc
  | cons x as ih =>
    intro b c hc
    cases b with
    | nil => simp [lcp] at hc
    | cons y bs =>
      by_cases hxy : x = y
      · subst hxy
        have hl : lcp (x :: as) (x :: bs) = x :: lcp as bs := by simp [lcp]
        rw [hl] at hc
        rcases List.mem_cons.mp hc with rfl | hc'
        · exact List.mem_cons_self _ _
        · exact List.mem_cons_of_mem _ (ih bs c hc')
      · have hl : lcp (x :: as) (y :: bs) = [] := by simp [lcp, hxy]
        rw [hl] at hc
        simp at hc

theorem intercalate_inj {xs ys : List Str}
    (hx : ∀ c ∈ xs, c ≠ [] ∧ '/' ∉ c) (hy : ∀ c ∈ ys, c ≠ [] ∧ '/' ∉ c)
    (h : List.intercalate ['/'] xs = List.intercalate ['/'] ys) : xs = ys := by
  cases xs with
  | nil =>
    cases ys with
    | nil => rfl
    | cons y ys' =>
      exact absurd h.symm (intercalate_ne_nil (by simp) (fun c hc => (hy c hc).1))
  | cons x xs' =>
    cases ys with
    | nil =>
      exact absurd h (intercalate_ne_nil (by simp) (fun c hc => (hx c hc).1))
    | cons y ys' =>
      have h1 := List.splitOn_intercalate (x :: xs') '/' (fun l hl => (hx l hl).2) (by simp)
      have h2 := List.splitOn_intercalate (y :: ys') '/' (fun l hl => (hy l hl).2) (by simp)
      rw [← h1, ← h2, h]

/-- `commonpath([root, full]) == root` is exactly the component-prefix test,
for a normalized single-slash absolute root and an absolute `full`. -/
theorem commonpath_eq_iff {root full : Str} (hA : isAbs root = true)
    (hD : startsDouble root = false) (hN : normpath root = root) :
    commonpath2 root full = root ↔
      isPrefixL (cleanComps root) (cleanComps full) = true := by
  have hgoodA := normComps_good root
  have hclean : cleanComps root = normComps true (root.splitOn '/') := by
    conv_lhs => rw [← hN]
    exact cleanComps_normpath_abs hA
  have hstruct : root = '/' :: List.intercalate ['/'] (normComps true (root.splitOn '/')) := by
    have h0 := normpath_abs hA
    rw [hD] at h0
    simp only [Bool.false_and, if_neg Bool.false_ne_true] at h0
    rw [hN] at h0
    simpa using h0
  unfold commonpath2
  rw [hA, if_pos rfl, hclean, ← lcp_eq_left_iff]
  generalize hAdef : normComps true (root.splitOn '/') = A at hstruct hgoodA ⊢
  constructor
  · intro h
    rw [hstruct] at h
    have hint : List.intercalate ['/'] (lcp A (cleanComps full)) =
        List.intercalate ['/'] A := by
      have := List.cons.inj (show ('/' :: List.intercalate ['/'] (lcp A (cleanComps full))) =
        '/' :: List.intercalate ['/'] A by simpa using h)
      exact this.2
    exact intercalate_inj
      (fun c hc => by
        have hg := hgoodA c (lcp_mem _ _ c hc)
        exact ⟨hg.1, hg.2.2⟩)
      (fun c hc => by
        have hg := hgoodA c hc
        exact ⟨hg.1, hg.2.2⟩) hint
  · intro h
    rw [h]
    exact hstruct.symm

/-! ### `urlparse` on a plain request path -/

theorem mem_takeWhile {c : Char} {p : Str} {q : Char → Bool}
    (h : c ∈ p.takeWhile q) : c ∈ p := by
  induction p with
  | nil => simp [List.takeWhile] at h
  | cons d ds ih =>
    rw [List.takeWhile] at h
    cases hq : q d with
    | false => rw [hq] at h; simp at h
    | true =>
      rw [hq] at h
      rcases List.mem_cons.mp h with rfl | h'
      · exact List.mem_cons_self _ _
      · exact List.mem_cons_of_mem _ (ih h')

/-- On a request path that begins with a single `/` and carries no tab, CR,
LF or `;`, `urlparse(p).path` is just the query/fragment-stripped string. -/
theorem urlPath_plain {rawp : Str} (hpA : isAbs rawp = true)
    (hpD : startsDouble rawp = false)
    (hsafe : ∀ c ∈ rawp, c ≠ '\t' ∧ c ≠ '\r' ∧ c ≠ '\n') (hsc : ';' ∉ rawp) :
    urlPath rawp = stripQuery (stripFrag rawp) := by
  have h1 : stripUnsafe rawp = rawp := by
    apply List.filter_eq_self.mpr
    intro c hc
    obtain ⟨ht, hr, hn⟩ := hsafe c hc
    simp [ht, hr, hn]
  have h2 : stripNetloc rawp = rawp := by
    unfold stripNetloc
    rw [hpD, if_neg Bool.false_ne_true]
  have h3 : ';' ∉ stripQuery (stripFrag rawp) := by
    intro hmem
    exact hsc (mem_takeWhile (mem_takeWhile hmem))
  unfold urlPath
  rw [h1, h2]
  unfold stripParams
  rw [if_neg h3]

/-- Claim C1 amended: restricted to request paths that begin with a single
slash (no `//` network-location prefix) and contain no `;` params separator
and no tab/CR/LF (none of which can occur in a request-line path), `safe_join`
over a normalized absolute root returns `None` exactly when the
query/fragment-stripped, percent-decoded path, naively joined onto the root
and normalized, lies outside the normalized absolute root.  (The
counterexample forces the `//` restriction: such paths lose their leading
segment to `urlparse`'s netloc.)  The resolver is a pure string function, so
no filesystem access occurs for any input. -/
theorem C1_safe_join_rejects_escapes (root rawp : Str)
    (hA : isAbs root = true) (hD : startsDouble root = false) (hN : normpath root = root)
    (hpA : isAbs rawp = true) (hpD : startsDouble rawp = false)
    (hsafe : ∀ c ∈ rawp, c ≠ '\t' ∧ c ≠ '\r' ∧ c ≠ '\n') (hsc : ';' ∉ rawp) :
    safe_join root rawp = none ↔ specEscapes root rawp = true := by
  have hurl := urlPath_plain hpA hpD hsafe hsc
  have habs : abspath root = root := hN
  have hfull := full_comps hA hD hN (unquote (stripQuery (stripFrag rawp)))
  have hclaim := claim_comps hA (unquote (stripQuery (stripFrag rawp)))
  have hiff := @commonpath_eq_iff root
    (normpath (pyJoin root (normpath (lstripSlash
      (unquote (stripQuery (stripFrag rawp))))))) hA hD hN
  have hcc : cleanComps (normpath (root ++ '/' :: unquote (stripQuery (stripFrag rawp)))) =
      cleanComps (normpath (pyJoin root (normpath (lstripSlash
        (unquote (stripQuery (stripFrag rawp))))))) := hclaim.trans hfull.symm
  unfold safe_join specEscapes liesWithin
  rw [hurl, habs, hcc]
  by_cases hcp : commonpath2 root (normpath (pyJoin root (normpath (lstripSlash
      (unquote (stripQuery (stripFrag rawp))))))) = root
  · rw [if_neg (by simpa using hcp)]
    cases hb : isPrefixL (cleanComps root) (cleanComps (normpath (pyJoin root (normpath
        (lstripSlash (unquote (stripQuery (stripFrag rawp)))))))) with
    | true => simp
    | false => exact absurd (hiff.mp hcp) (by rw [hb]; simp)
  · rw [if_pos (by simpa using hcp)]
    cases hb : isPrefixL (cleanComps root) (cleanComps (normpath (pyJoin root (normpath
        (lstripSlash (unquote (stripQuery (stripFrag rawp)))))))) with
    | true => exact absurd (hiff.mpr hb) hcp
    | false => simp

theorem C1_safe_join_rejects_escapes_witness :
    (isAbs ("/srv".toList) = true ∧ startsDouble ("/srv".toList) = false ∧
      normpath ("/srv".toList) = "/srv".toList ∧
      isAbs ("/../x".toList) = true ∧ startsDouble ("/../x".toList) = false ∧
      (∀ c ∈ ("/../x".toList), c ≠ '\t' ∧ c ≠ '\r' ∧ c ≠ '\n') ∧
      ';' ∉ ("/../x".toList)) ∧
    (safe_join ("/srv".toList) ("/../x".toList) = none ↔
      specEscapes ("/srv".toList) ("/../x".toList) = true) :=
  ⟨⟨by decide, by decide, by decide, by decide, by decide, by decide, by decide⟩,
    C1_safe_join_rejects_escapes ("/srv".toList) ("/../x".toList)
      (by decide) (by decide) (by decide) (by decide) (by decide) (by decide) (by decide)⟩

/-! ## ListingRenderer and RequestHandler (server.py lines 46–68 and 86–164)

The filesystem is modelled as an immutable snapshot: a map from resolved path
strings to regular-file data and a map to directory data.  `os.scandir` is the
one filesystem call the handler can see raise (e.g. `PermissionError`), so a
directory's entry list is an `Except`.  File sizes are the content length
(`os.path.getsize` of a regular file equals `len(content)`), and the
`formatdate`/`strftime` renderings of timestamps are carried as opaque,
already-formatted strings.  The socket-reading and request-line parsing
phases (lines 86–107) and the artificial delay are outside the modelled
fragment: `handle` covers lines 109–164, taking the parsed method, raw path
and client IP as inputs.  The hit-counter update (lines 134–146) performs the
same read-increment-write in both `naive` and `locked` modes; the modes only
differ in locking, which is irrelevant in this sequential model and is
treated by the interleaving model further below. -/

structure FileData where
  content : Str
  lastModified : Str
  deriving DecidableEq

structure DirEntry where
  name : Str
  isDir : Bool
  size : Nat
  mtimeStr : Str
  deriving DecidableEq

structure FS where
  file : Str → Option FileData
  dir : Str → Option (Except Unit (List DirEntry))

/-- `os.path.exists` over the snapshot. -/
def pathExists (fs : FS) (p : Str) : Bool :=
  (fs.file p).isSome || (fs.dir p).isSome

/-- The module-level dictionary `hit_counter`, with Python's
`hit_counter.get(k, 0)` as the reading convention. -/
def Counter : Type := Str → Nat

def Counter.incr (ctr : Counter) (k : Str) : Counter :=
  fun k' => if k' = k then ctr k + 1 else ctr k'

/-- `ALLOWED_MIME` (server.py lines 6–10). -/
def ALLOWED_MIME (ext : Str) : Option Str :=
  if ext = (".html".toList) then some ("text/html; charset=utf-8".toList)
  else if ext = (".png".toList) then some ("image/png".toList)
  else if ext = (".pdf".toList) then some ("application/pdf".toList)
  else none

/-- `os.path.splitext(p)[1].lower()`: the extension starting at the last dot
of the basename, ignoring leading dots of the basename, lower-cased. -/
def splitextLowerExt (p : Str) : Str :=
  if ('.' : Char) ∈ ((p.reverse.takeWhile (fun c => c ≠ '/')).reverse.dropWhile
      (fun c => c = '.')) then
    ('.' :: (p.reverse.takeWhile (fun c => c ≠ '.')).reverse).map Char.toLower
  else []

def lowerStr (s : Str) : Str := s.map Char.toLower

/-- Lexicographic string comparison by code point (Python `str` ordering,
used through the sort key `x.name.lower()`). -/
def strLe : Str → Str → Bool
  | [], _ => true
  | _ :: _, [] => false
  | a :: as, b :: bs => if a = b then strLe as bs else decide (a.toNat < b.toNat)

/-- The sort order of the listing (server.py line 49): directories first,
then case-insensitive name, via the key `(not is_dir, name.lower())`. -/
def entryLe (a b : DirEntry) : Bool :=
  if a.isDir = b.isDir then strLe (lowerStr a.name) (lowerStr b.name)
  else a.isDir

/-- Hex digit as produced by `urllib.parse.quote` (upper case). -/
def hexDigit (n : Nat) : Char :=
  if n < 10 then Char.ofNat ('0'.toNat + n) else Char.ofNat ('A'.toNat + n - 10)

/-- `urllib.parse.quote` with the default safe set (unreserved characters and
`/`), at the byte level. -/
def pyQuote (s : Str) : Str :=
  (s.map (fun c =>
    if ('A' ≤ c ∧ c ≤ 'Z') ∨ ('a' ≤ c ∧ c ≤ 'z') ∨ ('0' ≤ c ∧ c ≤ '9') ∨
        c = '_' ∨ c = '.' ∨ c = '-' ∨ c = '~' ∨ c = '/' then [c]
    else ['%', hexDigit (c.toNat / 16), hexDigit (c.toNat % 16)])).flatten

/-- `req_path + "/"` normalization used at lines 55 and 128. -/
def ensureSlash (p : Str) : Str :=
  if p.getLast? = some '/' then p else p ++ ['/']

/-- The key under which a listing row looks up its hit count
(server.py line 55): the slash-terminated request path plus the entry name. -/
def listing_req_key (req_path : Str) (name : Str) : Str :=
  ensureSlash req_path ++ name

/-- One `<tr>` row of the listing (server.py lines 50–57). -/
def rowHtml (ctr : Counter) (req_path : Str) (e : DirEntry) : Str :=
  ("<tr><td><a href=\"".toList) ++
    pyQuote (e.name ++ (if e.isDir then ['/'] else [])) ++
    ("\">".toList) ++ (e.name ++ (if e.isDir then ['/'] else [])) ++
    ("</a></td><td>".toList) ++ e.mtimeStr ++ ("</td><td>".toList) ++
    (if e.isDir then ("-".toList) else (Nat.repr e.size).toList ++ (" B".toList)) ++
    ("</td><td>".toList) ++
    (if e.isDir then ("-".toList)
      else (Nat.repr (ctr (listing_req_key req_path e.name))).toList) ++
    ("</td></tr>".toList)

/-- The parent-directory link (server.py line 58); the backslash replacement
is a no-op on POSIX. -/
def parentLink (req_path : Str) : Str :=
  if req_path = "/".toList then "/".toList
  else pyQuote (pyJoin req_path ("..".toList))

/-- `dir_listing_html(root, req_path, fs_path)` (server.py lines 46–68).
The `os.scandir` outcome is the `Except` carried by the snapshot: there is no
exception handler in the source, so a scandir error propagates out. -/
def dir_listing_html (ctr : Counter) (req_path : Str)
    (scan : Except Unit (List DirEntry)) : Except Unit Str :=
  match scan with
  | Except.error e => Except.error e
  | Except.ok entries =>
    Except.ok
      (("<!doctype html>\n<meta charset=\"utf-8\"><title>Directory listing for ".toList) ++
        req_path ++ ("</title>\n<h1>Directory listing for ".toList) ++ req_path ++
        ("</h1>\n<table border=\"1\" cellpadding=\"6\" cellspacing=\"0\">\n".toList) ++
        ("<tr><th>File / Directory</th><th>Last Modified</th><th>Size</th><th>Hits</th></tr>\n".toList) ++
        ("<tr><td><a href=\"".toList) ++ parentLink req_path ++
        ("\">Parent Directory</a></td><td></td><td></td><td>-</td></tr>\n".toList) ++
        ((entries.mergeSort entryLe).map (rowHtml ctr req_path)).flatten ++
        ("\n</table>".toList))

/-- Configuration fields of `args` consumed by the modelled fragment. -/
structure Args where
  rate : ℚ
  burst : Option Int

/-- A structured response: what `handle_request` passes to `build_response`
at each `conn.sendall` site (status, reason, header dict, body). -/
structure Response where
  code : Nat
  reason : Str
  headers : Headers
  body : Str
  deriving DecidableEq

def resp405 : Response :=
  ⟨405, "Method Not Allowed".toList,
    [("Content-Type".toList, "text/plain".toList)], "only GET/HEAD supported\n".toList⟩

def resp429 : Response :=
  ⟨429, "Too Many Requests".toList,
    [("Content-Type".toList, "text/plain".toList)], "rate limit\n".toList⟩

def resp404 : Response :=
  ⟨404, "Not Found".toList,
    [("Content-Type".toList, "text/html; charset=utf-8".toList)],
    "<!doctype html><h1>404 Not Found</h1>".toList⟩

def resp404unknown : Response :=
  ⟨404, "Not Found".toList,
    [("Content-Type".toList, "text/html; charset=utf-8".toList)],
    "<!doctype html><h1>404 Not Found</h1><p>Unknown type</p>".toList⟩

/-- The admission step of `handle_request` (server.py lines 116–118): the
effective burst is computed from `args` and `token_bucket_allow` is called. -/
def tbState (args : Args) (rl : RL) (ip : String) (now : ℚ) : Bool × RL :=
  token_bucket_allow rl ip args.rate ((effectiveBurst args.burst args.rate : Int) : ℚ) now

/-- `handle_request` (server.py lines 109–164), from the method check to the
response, as a pure transformer of the shared state.  `Except.error` means an
exception escaped the handler (no response was written).  The returned
`Response` is the structured form of what is passed to `build_response`. -/
def handle (args : Args) (fs : FS) (root : Str) (ctr : Counter) (rl : RL)
    (method path : Str) (ip : String) (now : ℚ) :
    Except Unit (Response × Counter × RL) :=
  if method ≠ ("GET".toList) ∧ method ≠ ("HEAD".toList) then
    Except.ok (resp405, ctr, rl)
  else if (tbState args rl ip now).1 = false then
    Except.ok (resp429, ctr, (tbState args rl ip now).2)
  else
    match safe_join root path with
    | none =>
      Except.ok (resp404, ctr, (tbState args rl ip now).2)
    | some fsp =>
      if pathExists fs fsp = false then
        Except.ok (resp404, ctr, (tbState args rl ip now).2)
      else
        match fs.dir fsp with
        | some scan =>
          match dir_listing_html ctr (ensureSlash path) scan with
          | Except.error e => Except.error e
          | Except.ok body =>
            Except.ok
              (⟨200, "OK".toList,
                [("Content-Type".toList, "text/html; charset=utf-8".toList),
                  ("Content-Length".toList, (Nat.repr body.length).toList)],
                if method = ("GET".toList) then body else []⟩, ctr,
                (tbState args rl ip now).2)
        | none =>
          match fs.file fsp with
          | none =>
            Except.ok (resp404, ctr, (tbState args rl ip now).2)
          | some fd =>
            match ALLOWED_MIME (splitextLowerExt fsp) with
            | none =>
              Except.ok (resp404unknown, Counter.incr ctr path,
                (tbState args rl ip now).2)
            | some mime =>
              Except.ok
                (⟨200, "OK".toList,
                  [("Content-Type".toList, mime),
                    ("Last-Modified".toList, fd.lastModified),
                    ("Content-Length".toList, (Nat.repr fd.content.length).toList)],
                  if method = ("GET".toList) then fd.content else []⟩,
                  Counter.incr ctr path, (tbState args rl ip now).2)

/-- Reduction of `handle` under the hypotheses that select the regular-file
branch: admissible method, admitted by the rate limiter, resolvable path,
existing regular (non-directory) file. -/
theorem handle_file_branch {args : Args} {fs : FS} {root : Str} (ctr : Counter) (rl : RL)
    {method path : Str} {ip : String} {now : ℚ} {fsp : Str} {fd : FileData}
    (hm : method = ("GET".toList) ∨ method = ("HEAD".toList))
    (hallow : (tbState args rl ip now).1 = true)
    (hsj : safe_join root path = some fsp)
    (hdir : fs.dir fsp = none) (hfile : fs.file fsp = some fd) :
    handle args fs root ctr rl method path ip now =
      (match ALLOWED_MIME (splitextLowerExt fsp) with
        | none => Except.ok (resp404unknown, Counter.incr ctr path, (tbState args rl ip now).2)
        | some mime =>
          Except.ok
            (⟨200, "OK".toList,
              [("Content-Type".toList, mime),
                ("Last-Modified".toList, fd.lastModified),
                ("Content-Length".toList, (Nat.repr fd.content.length).toList)],
              if method = ("GET".toList) then fd.content else []⟩,
              Counter.incr ctr path, (tbState args rl ip now).2)) := by
  unfold handle
  rw [if_neg (by rcases hm with h | h <;> simp [h]), if_neg (by simp [hallow])]
  have hex : pathExists fs fsp = true := by
    simp [pathExists, hfile]
  simp only [hsj, hex, Bool.true_eq_false, if_neg not_false, hdir, hfile]

/-- Claim C3 counterexample: a GET for an existing regular file whose
extension (`.txt`) is not in the allow-list responds 404, but the hit counter
IS incremented: the increment (lines 134–146) precedes the extension check
(lines 148–151). -/
theorem C3_counterexample :
    ((FS.mk (fun p => if p = ("/srv/x.txt".toList) then
        some ⟨"hello".toList, "LM".toList⟩ else none) (fun _ => none)).file
      ("/srv/x.txt".toList)).isSome = true ∧
    ((handle ⟨0, none⟩ (FS.mk (fun p => if p = ("/srv/x.txt".toList) then
        some ⟨"hello".toList, "LM".toList⟩ else none) (fun _ => none))
      ("/srv".toList) (fun _ => 0) RL.emp ("GET".toList) ("/x.txt".toList) "ip"
      0).toOption.map (fun r => r.1.code)) = some 404 ∧
    ((handle ⟨0, none⟩ (FS.mk (fun p => if p = ("/srv/x.txt".toList) then
        some ⟨"hello".toList, "LM".toList⟩ else none) (fun _ => none))
      ("/srv".toList) (fun _ => 0) RL.emp ("GET".toList) ("/x.txt".toList) "ip"
      0).toOption.map (fun r => r.2.1 ("/x.txt".toList))) = some 1 := by
  refine ⟨by decide, by decide, by decide⟩

/-- Claim C3 amended: for every GET or HEAD request for an existing regular
file whose extension is not in the allow-list, the handler responds 404 (the
"Unknown type" page) but the hit counter for the raw request path is
incremented by one — the increment happens before the extension check, not
only on success.  All other counter keys are unchanged. -/
theorem C3_unknown_type_404_still_counts (args : Args) (fs : FS) (root : Str)
    (ctr : Counter) (rl : RL) (method path : Str) (ip : String) (now : ℚ)
    (fsp : Str) (fd : FileData)
    (hm : method = ("GET".toList) ∨ method = ("HEAD".toList))
    (hallow : (tbState args rl ip now).1 = true)
    (hsj : safe_join root path = some fsp)
    (hdir : fs.dir fsp = none) (hfile : fs.file fsp = some fd)
    (hext : ALLOWED_MIME (splitextLowerExt fsp) = none) :
    handle args fs root ctr rl method path ip now =
      Except.ok (resp404unknown, Counter.incr ctr path, (tbState args rl ip now).2) ∧
    resp404unknown.code = 404 ∧
    Counter.incr ctr path path = ctr path + 1 ∧
    (∀ k, k ≠ path → Counter.incr ctr path k = ctr k) := by
  refine ⟨?_, rfl, by simp [Counter.incr], ?_⟩
  · rw [handle_file_branch ctr rl hm hallow hsj hdir hfile, hext]
  · intro k hk
    simp [Counter.incr, hk]

/-- Claim C4 counterexample: serving `/a.html?x=1` increments the hit counter
under the raw key `/a.html?x=1` (query string included, nothing decoded or
normalized), while the directory listing for `/` looks the entry `a.html` up
under `/a.html`, whose count stays 0.  The count shown in the listing row
does not equal the number of times the file was served, contradicting the
claim in exactly the query-string case it asserts. -/
theorem C4_counterexample :
    ((handle ⟨0, none⟩ (FS.mk (fun p => if p = ("/srv/a.html".toList) then
        some ⟨"hi".toList, "LM".toList⟩ else none)
        (fun p => if p = ("/srv".toList) then
          some (Except.ok [⟨"a.html".toList, false, 2, "MT".toList⟩]) else none))
      ("/srv".toList) (fun _ => 0) RL.emp ("GET".toList) ("/a.html?x=1".toList) "ip"
      0).toOption.map (fun r => r.1.code)) = some 200 ∧
    ((handle ⟨0, none⟩ (FS.mk (fun p => if p = ("/srv/a.html".toList) then
        some ⟨"hi".toList, "LM".toList⟩ else none)
        (fun p => if p = ("/srv".toList) then
          some (Except.ok [⟨"a.html".toList, false, 2, "MT".toList⟩]) else none))
      ("/srv".toList) (fun _ => 0) RL.emp ("GET".toList) ("/a.html?x=1".toList) "ip"
      0).toOption.map (fun r => r.2.1 ("/a.html?x=1".toList))) = some 1 ∧
    listing_req_key ("/".toList) ("a.html".toList) = ("/a.html".toList) ∧
    ((handle ⟨0, none⟩ (FS.mk (fun p => if p = ("/srv/a.html".toList) then
        some ⟨"hi".toList, "LM".toList⟩ else none)
        (fun p => if p = ("/srv".toList) then
          some (Except.ok [⟨"a.html".toList, false, 2, "MT".toList⟩]) else none))
      ("/srv".toList) (fun _ => 0) RL.emp ("GET".toList) ("/a.html?x=1".toList) "ip"
      0).toOption.map (fun r => r.2.1 (listing_req_key ("/".toList) ("a.html".toList)))) =
      some 0 := by
  refine ⟨by decide, by decide, by decide, by decide⟩

/-- Claim C4 amended: the handler increments under the raw request path
(query/fragment not stripped, nothing percent-decoded, no normalization);
the listing looks a row's count up under `directory-request-path + "/" +
entry-name`.  The two keys coincide exactly when the file is requested by
that literal concatenation, and then the listing count for the entry is
incremented by each such serve. -/
theorem C4_keys_match_for_plain_paths (args : Args) (fs : FS) (root : Str)
    (ctr : Counter) (rl : RL) (dirPath name : Str) (ip : String) (now : ℚ)
    (fsp : Str) (fd : FileData)
    (hallow : (tbState args rl ip now).1 = true)
    (hsj : safe_join root (listing_req_key dirPath name) = some fsp)
    (hdir : fs.dir fsp = none) (hfile : fs.file fsp = some fd) :
    ∀ resp ctr' rl',
      handle args fs root ctr rl ("GET".toList) (listing_req_key dirPath name) ip now =
        Except.ok (resp, ctr', rl') →
      ctr' (listing_req_key dirPath name) = ctr (listing_req_key dirPath name) + 1 ∧
      (∀ k, k ≠ listing_req_key dirPath name → ctr' k = ctr k) := by
  intro resp ctr' rl' h
  rw [handle_file_branch ctr rl (Or.inl rfl) hallow hsj hdir hfile] at h
  cases hmime : ALLOWED_MIME (splitextLowerExt fsp) with
  | none =>
    rw [hmime] at h
    simp only [Except.ok.injEq, Prod.mk.injEq] at h
    obtain ⟨-, hctr, -⟩ := h
    subst hctr
    exact ⟨by simp [Counter.incr], fun k hk => by simp [Counter.incr, hk]⟩
  | some mime =>
    rw [hmime] at h
    simp only [Except.ok.injEq, Prod.mk.injEq] at h
    obtain ⟨-, hctr, -⟩ := h
    subst hctr
    exact ⟨by simp [Counter.incr], fun k hk => by simp [Counter.incr, hk]⟩

/-- Claim C5 counterexample: when `os.scandir` raises on the resolved
directory (modelled by the snapshot's `Except.error`), the handler produces
no response at all — the exception propagates out of `dir_listing_html`
(which has no handler in the source) and out of `handle_request`. -/
theorem C5_counterexample :
    ((FS.mk (fun _ => none) (fun p => if p = ("/srv/d".toList) then
        some (Except.error ()) else none)).dir ("/srv/d".toList)).isSome = true ∧
    ((handle ⟨0, none⟩ (FS.mk (fun _ => none)
        (fun p => if p = ("/srv/d".toList) then some (Except.error ()) else none))
      ("/srv".toList) (fun _ => 0) RL.emp ("GET".toList) ("/d".toList) "ip"
      0).toOption.isNone) = true := by
  refine ⟨by decide, by decide⟩

/-- Claim C5 amended: if directory enumeration is denied by the filesystem,
the error propagates: `dir_listing_html` has no exception handler, so the
request completes with no response rather than a degraded listing row. -/
theorem C5_scandir_error_propagates (args : Args) (fs : FS) (root : Str)
    (ctr : Counter) (rl : RL) (method path : Str) (ip : String) (now : ℚ)
    (fsp : Str) (e : Unit)
    (hm : method = ("GET".toList) ∨ method = ("HEAD".toList))
    (hallow : (tbState args rl ip now).1 = true)
    (hsj : safe_join root path = some fsp)
    (hdir : fs.dir fsp = some (Except.error e)) :
    handle args fs root ctr rl method path ip now = Except.error e := by
  unfold handle
  rw [if_neg (by rcases hm with h | h <;> simp [h]), if_neg (by simp [hallow])]
  have hex : pathExists fs fsp = true := by
    simp [pathExists, hdir]
  simp only [hsj, hex, Bool.true_eq_false, if_neg not_false, hdir, dir_listing_html]

/-- Claim C10: HEAD requests run exactly the same hit-counter increment and
rate-limiter update as GET for the same path, and produce the same status,
reason and headers; only the body differs (empty for HEAD on a success; for
the unknown-type 404 both methods get the same error page). -/
theorem C10_head_counts_like_get (args : Args) (fs : FS) (root : Str)
    (ctr : Counter) (rl : RL) (path : Str) (ip : String) (now : ℚ)
    (fsp : Str) (fd : FileData)
    (hallow : (tbState args rl ip now).1 = true)
    (hsj : safe_join root path = some fsp)
    (hdir : fs.dir fsp = none) (hfile : fs.file fsp = some fd) :
    ∃ respG respH : Response,
      handle args fs root ctr rl ("GET".toList) path ip now =
        Except.ok (respG, Counter.incr ctr path, (tbState args rl ip now).2) ∧
      handle args fs root ctr rl ("HEAD".toList) path ip now =
        Except.ok (respH, Counter.incr ctr path, (tbState args rl ip now).2) ∧
      respG.code = respH.code ∧ respG.reason = respH.reason ∧
      respG.headers = respH.headers ∧
      (∀ mime, ALLOWED_MIME (splitextLowerExt fsp) = some mime →
        respG.body = fd.content ∧ respH.body = []) ∧
      (ALLOWED_MIME (splitextLowerExt fsp) = none → respG.body = respH.body) := by
  have hG := handle_file_branch ctr rl (Or.inl rfl) hallow hsj hdir hfile
  have hH := handle_file_branch ctr rl (Or.inr rfl) hallow hsj hdir hfile
  cases hmime : ALLOWED_MIME (splitextLowerExt fsp) with
  | none =>
    simp only [hmime] at hG hH
    exact ⟨resp404unknown, resp404unknown, hG, hH, rfl, rfl, rfl,
      fun mime hmime' => Option.noConfusion hmime', fun _ => rfl⟩
  | some mime =>
    simp only [hmime] at hG hH
    refine ⟨⟨200, "OK".toList,
      [("Content-Type".toList, mime), ("Last-Modified".toList, fd.lastModified),
        ("Content-Length".toList, (Nat.repr fd.content.length).toList)], fd.content⟩,
      ⟨200, "OK".toList,
      [("Content-Type".toList, mime), ("Last-Modified".toList, fd.lastModified),
        ("Content-Length".toList, (Nat.repr fd.content.length).toList)], []⟩,
      ?_, ?_, rfl, rfl, rfl, fun m hm' => ⟨rfl, rfl⟩,
      fun h => Option.noConfusion h⟩
    · rw [hG]
      simp
    · rw [hH]
      have hne : ("HEAD".toList : Str) ≠ ("GET".toList) := by decide
      simp [hne]

/-! ### Concrete fixtures for the witnesses -/

def args0 : Args := ⟨0, none⟩

def ctr0 : Counter := fun _ => 0

def fsFile : FS :=
  FS.mk (fun p => if p = ("/srv/x.txt".toList) then
    some ⟨"hello".toList, "LM".toList⟩ else none) (fun _ => none)

def fsDirErr : FS :=
  FS.mk (fun _ => none)
    (fun p => if p = ("/srv/d".toList) then some (Except.error ()) else none)

def fsHtml : FS :=
  FS.mk (fun p => if p = ("/srv/a.html".toList) then
      some ⟨"hi".toList, "LM".toList⟩ else none)
    (fun p => if p = ("/srv".toList) then
      some (Except.ok [⟨"a.html".toList, false, 2, "MT".toList⟩]) else none)

theorem C3_unknown_type_404_still_counts_witness :
    ((tbState args0 RL.emp "ip" 0).1 = true ∧
      safe_join ("/srv".toList) ("/x.txt".toList) = some ("/srv/x.txt".toList) ∧
      fsFile.dir ("/srv/x.txt".toList) = none ∧
      fsFile.file ("/srv/x.txt".toList) = some ⟨"hello".toList, "LM".toList⟩ ∧
      ALLOWED_MIME (splitextLowerExt ("/srv/x.txt".toList)) = none) ∧
    (handle args0 fsFile ("/srv".toList) ctr0 RL.emp ("GET".toList) ("/x.txt".toList)
        "ip" 0 =
        Except.ok (resp404unknown, Counter.incr ctr0 ("/x.txt".toList),
          (tbState args0 RL.emp "ip" 0).2) ∧
      resp404unknown.code = 404 ∧
      Counter.incr ctr0 ("/x.txt".toList) ("/x.txt".toList) = ctr0 ("/x.txt".toList) + 1 ∧
      (∀ k, k ≠ ("/x.txt".toList) → Counter.incr ctr0 ("/x.txt".toList) k = ctr0 k)) :=
  ⟨⟨by decide, by decide, rfl, by decide, by decide⟩,
    C3_unknown_type_404_still_counts args0 fsFile ("/srv".toList) ctr0 RL.emp
      ("GET".toList) ("/x.txt".toList) "ip" 0 ("/srv/x.txt".toList)
      ⟨"hello".toList, "LM".toList⟩ (Or.inl rfl) (by decide) (by decide) rfl
      (by decide) (by decide)⟩

theorem C4_keys_match_for_plain_paths_witness :
    ((tbState args0 RL.emp "ip" 0).1 = true ∧
      safe_join ("/srv".toList) (listing_req_key ("/".toList) ("a.html".toList)) =
        some ("/srv/a.html".toList) ∧
      fsHtml.dir ("/srv/a.html".toList) = none ∧
      fsHtml.file ("/srv/a.html".toList) = some ⟨"hi".toList, "LM".toList⟩) ∧
    (∀ resp ctr' rl',
      handle args0 fsHtml ("/srv".toList) ctr0 RL.emp ("GET".toList)
          (listing_req_key ("/".toList) ("a.html".toList)) "ip" 0 =
        Except.ok (resp, ctr', rl') →
      ctr' (listing_req_key ("/".toList) ("a.html".toList)) =
        ctr0 (listing_req_key ("/".toList) ("a.html".toList)) + 1 ∧
      (∀ k, k ≠ listing_req_key ("/".toList) ("a.html".toList) → ctr' k = ctr0 k)) :=
  ⟨⟨by decide, by decide, rfl, by decide⟩,
    C4_keys_match_for_plain_paths args0 fsHtml ("/srv".toList) ctr0 RL.emp
      ("/".toList) ("a.html".toList) "ip" 0 ("/srv/a.html".toList)
      ⟨"hi".toList, "LM".toList⟩ (by decide) (by decide) rfl (by decide)⟩

theorem C5_scandir_error_propagates_witness :
    ((tbState args0 RL.emp "ip" 0).1 = true ∧
      safe_join ("/srv".toList) ("/d".toList) = some ("/srv/d".toList) ∧
      fsDirErr.dir ("/srv/d".toList) = some (Except.error ())) ∧
    handle args0 fsDirErr ("/srv".toList) ctr0 RL.emp ("GET".toList) ("/d".toList)
      "ip" 0 = Except.error () :=
  ⟨⟨by decide, by decide, rfl⟩,
    C5_scandir_error_propagates args0 fsDirErr ("/srv".toList) ctr0 RL.emp
      ("GET".toList) ("/d".toList) "ip" 0 ("/srv/d".toList) ()
      (Or.inl rfl) (by decide) (by decide) rfl⟩

theorem C10_head_counts_like_get_witness :
    ((tbState args0 RL.emp "ip" 0).1 = true ∧
      safe_join ("/srv".toList) ("/a.html".toList) = some ("/srv/a.html".toList) ∧
      fsHtml.dir ("/srv/a.html".toList) = none ∧
      fsHtml.file ("/srv/a.html".toList) = some ⟨"hi".toList, "LM".toList⟩) ∧
    (∃ respG respH : Response,
      handle args0 fsHtml ("/srv".toList) ctr0 RL.emp ("GET".toList) ("/a.html".toList)
          "ip" 0 =
        Except.ok (respG, Counter.incr ctr0 ("/a.html".toList),
          (tbState args0 RL.emp "ip" 0).2) ∧
      handle args0 fsHtml ("/srv".toList) ctr0 RL.emp ("HEAD".toList) ("/a.html".toList)
          "ip" 0 =
        Except.ok (respH, Counter.incr ctr0 ("/a.html".toList),
          (tbState args0 RL.emp "ip" 0).2) ∧
      respG.code = respH.code ∧ respG.reason = respH.reason ∧
      respG.headers = respH.headers ∧
      (∀ mime, ALLOWED_MIME (splitextLowerExt ("/srv/a.html".toList)) = some mime →
        respG.body = ("hi".toList : Str) ∧ respH.body = []) ∧
      (ALLOWED_MIME (splitextLowerExt ("/srv/a.html".toList)) = none →
        respG.body = respH.body)) :=
  ⟨⟨by decide, by decide, rfl, by decide⟩,
    C10_head_counts_like_get args0 fsHtml ("/srv".toList) ctr0 RL.emp
      ("/a.html".toList) "ip" 0 ("/srv/a.html".toList) ⟨"hi".toList, "LM".toList⟩
      (by decide) (by decide) rfl (by decide)⟩

/-! ## HitCounter under `locked` mode: interleaving model (server.py 142–146)

A worker thread serving a file runs, under `with counter_lock:`, the sequence
acquire → read `current = hit_counter.get(k, 0)` → (optional sleep) →
write `hit_counter[k] = current + 1` → release.  We model N such threads
incrementing one shared key, interleaved arbitrarily; the optional sleep does
not touch shared state (it only widens the window between read and write), so
it is not a separate step.  Mutual exclusion is NOT baked into the read/write
steps — only `acquire` checks the lock — so the absence of lost updates is a
consequence of the lock discipline, proved through an invariant. -/

inductive TPc where
  | idle : TPc
  | locked : TPc
  | haveRead : Nat → TPc
  | wrote : TPc
  | done : TPc
  deriving DecidableEq

/-- Shared state: the counter value for the key, the `counter_lock` holder,
and each thread's position inside the increment code. -/
structure Config where
  ctr : Nat
  lock : Option Nat
  threads : List TPc

/-- One scheduler step: some thread executes its next instruction. -/
inductive CStep : Config → Config → Prop where
  | acquire (c : Config) (i : Nat) (h : c.threads[i]? = some TPc.idle)
      (hl : c.lock = none) :
      CStep c ⟨c.ctr, some i, c.threads.set i TPc.locked⟩
  | read (c : Config) (i : Nat) (h : c.threads[i]? = some TPc.locked) :
      CStep c ⟨c.ctr, c.lock, c.threads.set i (TPc.haveRead c.ctr)⟩
  | write (c : Config) (i : Nat) (v : Nat)
      (h : c.threads[i]? = some (TPc.haveRead v)) :
      CStep c ⟨v + 1, c.lock, c.threads.set i TPc.wrote⟩
  | release (c : Config) (i : Nat) (h : c.threads[i]? = some TPc.wrote) :
      CStep c ⟨c.ctr, none, c.threads.set i TPc.done⟩

/-- A thread between acquire and release. -/
def inCrit : TPc → Bool
  | TPc.idle => false
  | TPc.done => false
  | _ => true

/-- A thread whose write has already landed. -/
def written : TPc → Bool
  | TPc.wrote => true
  | TPc.done => true
  | _ => false

/-- The inductive invariant: (a) any thread inside the critical section is
the lock holder; (b) a thread that has read `v` read the current value;
(c) the counter is the initial value plus the number of landed writes;
(d) the thread count is stable. -/
def CInv (init n : Nat) (c : Config) : Prop :=
  (∀ (i : Nat) (pc : TPc), c.threads[i]? = some pc → inCrit pc = true → c.lock = some i) ∧
  (∀ (i v : Nat), c.threads[i]? = some (TPc.haveRead v) → v = c.ctr) ∧
  c.ctr = init + c.threads.countP written ∧
  c.threads.length = n

theorem countP_set {α : Type} (p : α → Bool) (l : List α) :
    ∀ (i : Nat) (a b : α), l[i]? = some a →
      (l.set i b).countP p + (if p a then 1 else 0) =
        l.countP p + (if p b then 1 else 0) := by
  induction l with
  | nil => intro i a b h; simp at h
  | cons x xs ih =>
    intro i a b h
    cases i with
    | zero =>
      simp only [List.getElem?_cons_zero, Option.some.injEq] at h
      subst h
      simp only [List.set_cons_zero, List.countP_cons]
      omega
    | succ i' =>
      simp only [List.getElem?_cons_succ] at h
      simp only [List.set_cons_succ, List.countP_cons]
      have := ih i' a b h
      omega

theorem cinv_step {init n : Nat} {c c' : Config} (hinv : CInv init n c)
    (hstep : CStep c c') : CInv init n c' := by
  obtain ⟨hlock, hread, hcount, hlen⟩ := hinv
  cases hstep with
  | acquire i h hl =>
    have hlt : i < c.threads.length := by
      by_contra hge
      rw [List.getElem?_eq_none (by omega)] at h
      exact Option.noConfusion h
    refine ⟨?_, ?_, ?_, ?_⟩
    · intro j pc hj hc
      by_cases hij : i = j
      · exact congrArg some hij
      · rw [List.getElem?_set_ne hij] at hj
        exact absurd (hlock j pc hj hc) (by rw [hl]; intro h0; exact Option.noConfusion h0)
    · intro j v hj
      by_cases hij : i = j
      · subst hij
        rw [List.getElem?_set_self hlt] at hj
        exact absurd hj (by intro h0; cases h0)
      · rw [List.getElem?_set_ne hij] at hj
        exact absurd (hlock j _ hj rfl)
          (by rw [hl]; intro h0; exact Option.noConfusion h0)
    · have := countP_set written c.threads i TPc.idle TPc.locked h
      simp [written] at this
      dsimp only
      omega
    · rw [List.length_set]; exact hlen
  | read i h =>
    have hlt : i < c.threads.length := by
      by_contra hge
      rw [List.getElem?_eq_none (by omega)] at h
      exact Option.noConfusion h
    have hli : c.lock = some i := hlock i TPc.locked h rfl
    refine ⟨?_, ?_, ?_, ?_⟩
    · intro j pc hj hc
      by_cases hij : i = j
      · rw [hli, hij]
      · rw [List.getElem?_set_ne hij] at hj
        exact hlock j pc hj hc
    · intro j v hj
      by_cases hij : i = j
      · subst hij
        rw [List.getElem?_set_self hlt] at hj
        cases hj
        rfl
      · rw [List.getElem?_set_ne hij] at hj
        exact hread j v hj
    · have := countP_set written c.threads i TPc.locked (TPc.haveRead c.ctr) h
      simp [written] at this
      dsimp only
      omega
    · rw [List.length_set]; exact hlen
  | write i v h =>
    have hlt : i < c.threads.length := by
      by_contra hge
      rw [List.getElem?_eq_none (by omega)] at h
      exact Option.noConfusion h
    have hli : c.lock = some i := hlock i (TPc.haveRead v) h rfl
    have hv : v = c.ctr := hread i v h
    refine ⟨?_, ?_, ?_, ?_⟩
    · intro j pc hj hc
      by_cases hij : i = j
      · rw [hli, hij]
      · rw [List.getElem?_set_ne hij] at hj
        exact hlock j pc hj hc
    · intro j w hj
      by_cases hij : i = j
      · subst hij
        rw [List.getElem?_set_self hlt] at hj
        exact absurd hj (by intro h0; cases h0)
      · rw [List.getElem?_set_ne hij] at hj
        -- another thread inside the critical section would also own the lock
        have := hlock j _ hj rfl
        rw [hli] at this
        exact absurd (Option.some.inj this) hij
    · have := countP_set written c.threads i (TPc.haveRead v) TPc.wrote h
      simp [written] at this
      dsimp only
      omega
    · rw [List.length_set]; exact hlen
  | release i h =>
    have hlt : i < c.threads.length := by
      by_contra hge
      rw [List.getElem?_eq_none (by omega)] at h
      exact Option.noConfusion h
    have hli : c.lock = some i := hlock i TPc.wrote h rfl
    refine ⟨?_, ?_, ?_, ?_⟩
    · intro j pc hj hc
      by_cases hij : i = j
      · subst hij
        rw [List.getElem?_set_self hlt] at hj
        cases hj
        cases hc
      · rw [List.getElem?_set_ne hij] at hj
        have := hlock j pc hj hc
        rw [hli] at this
        exact absurd (Option.some.inj this) hij
    · intro j w hj
      by_cases hij : i = j
      · subst hij
        rw [List.getElem?_set_self hlt] at hj
        exact absurd hj (by intro h0; cases h0)
      · rw [List.getElem?_set_ne hij] at hj
        have := hlock j _ hj rfl
        rw [hli] at this
        exact absurd (Option.some.inj this) hij
    · have := countP_set written c.threads i TPc.wrote TPc.done h
      simp [written] at this
      dsimp only
      omega
    · rw [List.length_set]; exact hlen

theorem cinv_steps {init n : Nat} {c c' : Config} (hinv : CInv init n c)
    (hsteps : Relation.ReflTransGen CStep c c') : CInv init n c' := by
  induction hsteps with
  | refl => exact hinv
  | tail _ hstep ih => exact cinv_step ih hstep

/-- Claim C9: under `locked` mode, for every interleaving of N threads each
performing one read-(sleep)-write increment of the shared key inside the
critical section, when all threads have finished the counter equals its
pre-existing value plus N — no update is lost. -/
theorem C9_locked_no_lost_updates (n init : Nat) (c : Config)
    (hsteps : Relation.ReflTransGen CStep
      ⟨init, none, List.replicate n TPc.idle⟩ c)
    (hdone : ∀ pc ∈ c.threads, pc = TPc.done) :
    c.ctr = init + n := by
  have hinv0 : CInv init n ⟨init, none, List.replicate n TPc.idle⟩ := by
    refine ⟨?_, ?_, ?_, by simp⟩
    · intro i pc hi hc
      have hpc : pc = TPc.idle := List.eq_of_mem_replicate (List.getElem?_mem hi)
      subst hpc
      exact absurd hc (by simp [inCrit])
    · intro i v hi
      exact absurd (List.eq_of_mem_replicate (List.getElem?_mem hi))
        (by intro h0; cases h0)
    · have hz : (List.replicate n TPc.idle).countP written = 0 :=
        List.countP_eq_zero.mpr (fun a ha => by
          rw [List.eq_of_mem_replicate ha]
          simp [written])
      simp [hz]
  obtain ⟨-, -, hcount, hlen⟩ := cinv_steps hinv0 hsteps
  have hall : c.threads.countP written = c.threads.length :=
    List.countP_eq_length.mpr (fun a ha => by rw [hdone a ha]; rfl)
  rw [hcount, hall, hlen]

theorem C9_locked_no_lost_updates_witness :
    (Relation.ReflTransGen CStep
        ⟨0, none, List.replicate 2 TPc.idle⟩ ⟨2, none, [TPc.done, TPc.done]⟩ ∧
      (∀ pc ∈ ((⟨2, none, [TPc.done, TPc.done]⟩ : Config)).threads, pc = TPc.done)) ∧
    ((⟨2, none, [TPc.done, TPc.done]⟩ : Config)).ctr = 0 + 2 := by
  have s1 : CStep ⟨0, none, [TPc.idle, TPc.idle]⟩ ⟨0, some 0, [TPc.locked, TPc.idle]⟩ :=
    CStep.acquire ⟨0, none, [TPc.idle, TPc.idle]⟩ 0 rfl rfl
  have s2 : CStep ⟨0, some 0, [TPc.locked, TPc.idle]⟩
      ⟨0, some 0, [TPc.haveRead 0, TPc.idle]⟩ :=
    CStep.read ⟨0, some 0, [TPc.locked, TPc.idle]⟩ 0 rfl
  have s3 : CStep ⟨0, some 0, [TPc.haveRead 0, TPc.idle]⟩
      ⟨1, some 0, [TPc.wrote, TPc.idle]⟩ :=
    CStep.write ⟨0, some 0, [TPc.haveRead 0, TPc.idle]⟩ 0 0 rfl
  have s4 : CStep ⟨1, some 0, [TPc.wrote, TPc.idle]⟩ ⟨1, none, [TPc.done, TPc.idle]⟩ :=
    CStep.release ⟨1, some 0, [TPc.wrote, TPc.idle]⟩ 0 rfl
  have s5 : CStep ⟨1, none, [TPc.done, TPc.idle]⟩ ⟨1, some 1, [TPc.done, TPc.locked]⟩ :=
    CStep.acquire ⟨1, none, [TPc.done, TPc.idle]⟩ 1 rfl rfl
  have s6 : CStep ⟨1, some 1, [TPc.done, TPc.locked]⟩
      ⟨1, some 1, [TPc.done, TPc.haveRead 1]⟩ :=
    CStep.read ⟨1, some 1, [TPc.done, TPc.locked]⟩ 1 rfl
  have s7 : CStep ⟨1, some 1, [TPc.done, TPc.haveRead 1]⟩
      ⟨2, some 1, [TPc.done, TPc.wrote]⟩ :=
    CStep.write ⟨1, some 1, [TPc.done, TPc.haveRead 1]⟩ 1 1 rfl
  have s8 : CStep ⟨2, some 1, [TPc.done, TPc.wrote]⟩ ⟨2, none, [TPc.done, TPc.done]⟩ :=
    CStep.release ⟨2, some 1, [TPc.done, TPc.wrote]⟩ 1 rfl
  have hrun : Relation.ReflTransGen CStep
      ⟨0, none, List.replicate 2 TPc.idle⟩ ⟨2, none, [TPc.done, TPc.done]⟩ :=
    Relation.ReflTransGen.tail (Relation.ReflTransGen.tail (Relation.ReflTransGen.tail
      (Relation.ReflTransGen.tail (Relation.ReflTransGen.tail (Relation.ReflTransGen.tail
        (Relation.ReflTransGen.tail (Relation.ReflTransGen.tail
          Relation.ReflTransGen.refl s1) s2) s3) s4) s5) s6) s7) s8
  exact ⟨⟨hrun, by decide⟩,
    C9_locked_no_lost_updates 2 0 ⟨2, none, [TPc.done, TPc.done]⟩ hrun (by decide)⟩

end Server
